import Mathlib

/-!
# Task monitor (`tasks.go`): counters, error buckets and the `Stats` snapshot

A shallow embedding of `TaskMonitor`, `TaskCtx.Finish`, `TaskMonitor.Stats` and
`MonitorGroup.WrapNamed` from `src/tasks.go`.

* Go strings are byte sequences: `len` and slicing count bytes, and `sort.Strings`
  orders them bytewise.  They are modelled as lists of bytes.
* `uint64` counters are natural numbers; an increment is reduced modulo `2 ^ 64` and a
  decrement of `0` wraps around to `2 ^ 64 - 1`.
* The mutex is not modelled: every operation is one atomic step on the state.
* The clock, the `errors` package and `SanitizeName` live outside `tasks.go`; an
  error value is modelled by what the `errors` package answers about it, and
  `SanitizeName` and the flag value are fields of an environment record.
* The timing accumulator (`ValueMonitor`), the registry of a `MonitorGroup` and
  `handleError` live outside `tasks.go` too: the accumulator is the list of durations
  handed to it, its snapshot a parameter of `Stats`; the registry is a get-or-create
  table; a call of `handleError` is recorded by its argument.
-/

namespace Monitor

/-! ## Strings -/

/-- One byte of a Go string. -/
abbrev Byte := Fin 256

/-- A Go `string`: an immutable sequence of bytes. -/
abbrev GoString := List Byte

/-- The bytes of an ASCII literal of the source text (every literal in `tasks.go` is
ASCII, where the UTF-8 encoding of a character is its code point). -/
def lit (s : String) : GoString :=
  s.data.map (fun c => Fin.ofNat c.toNat)

/-- Number of values of a `uint64`. -/
abbrev U64 : Nat := 2 ^ 64

/-! ## The `errors` field: `map[string]uint64` -/

/-- A Go `map[string]uint64`, as the list of its entries.  The order of the list stands
for the (unspecified) iteration order of the map. -/
abbrev ErrMap := List (GoString × Nat)

namespace ErrMap

/-- The keys, in iteration order (`for k := range m`). -/
def keys (m : ErrMap) : List GoString :=
  m.map Prod.fst

/-- Reading `m[k]`: the zero value when the key is absent. -/
def get : ErrMap → GoString → Nat
  | [], _ => 0
  | (k', v) :: rest, k => if k' = k then v else get rest k

/-- Assignment `m[k] = v`: overwrites the entry of `k`, or adds one. -/
def set : ErrMap → GoString → Nat → ErrMap
  | [], k, v => [(k, v)]
  | (k', v') :: rest, k, v => if k' = k then (k', v) :: rest else (k', v') :: set rest k v

/-- Sum of all counts, as a natural number. -/
def total (m : ErrMap) : Nat :=
  (m.map Prod.snd).sum

/-- The key/value discipline of a real map: keys are pairwise distinct and every count
is a `uint64`. -/
def Valid (m : ErrMap) : Prop :=
  m.keys.Nodup ∧ ∀ e ∈ m, e.2 < U64

instance (m : ErrMap) : Decidable m.Valid :=
  inferInstanceAs (Decidable (m.keys.Nodup ∧ ∀ e ∈ m, e.2 < U64))

end ErrMap

/-! ## Errors, environment, panics -/

/-- An `error` value as `Finish` sees it: the answers of the `errors` package and of
the `Error()` method. -/
structure GoError where
  /-- Result of `errors.HierarchicalError.Contains(err)`. -/
  hierarchical : Bool
  /-- Result of `errors.GetClass(err).String()`. -/
  className : GoString
  /-- Result of `err.Error()`. -/
  message : GoString
deriving DecidableEq, Repr

/-- What `tasks.go` takes from outside: the value of the flag
`monitor.max_error_length` (an `int`) and the function `SanitizeName`. -/
structure Env where
  maxErrorLength : Int
  SanitizeName : GoString → GoString

/-- Run-time failures of the modelled code. -/
inductive Panic
  /-- Slice bounds out of range. -/
  | sliceBounds
deriving DecidableEq, Repr

/-! ## The monitor -/

/-- The fields of `TaskMonitor` (without the mutex).  `timing` holds the durations
whose `Seconds()` were passed to `timing.Add`, oldest first. -/
structure TaskMonitor where
  current : Nat
  highwater : Nat
  total_started : Nat
  total_completed : Nat
  success : Nat
  timing : List Int
  errors : ErrMap
deriving DecidableEq, Repr

/-- A fresh monitor: all counters zero, an empty map, an empty timing accumulator. -/
def NewTaskMonitor : TaskMonitor :=
  { current := 0, highwater := 0, total_started := 0, total_completed := 0,
    success := 0, timing := [], errors := [] }

namespace TaskMonitor

/-- Every counter is a `uint64` and `errors` is a real map. -/
def Valid (t : TaskMonitor) : Prop :=
  t.current < U64 ∧ t.highwater < U64 ∧ t.total_started < U64 ∧
    t.total_completed < U64 ∧ t.success < U64 ∧ t.errors.Valid

instance (t : TaskMonitor) : Decidable t.Valid :=
  inferInstanceAs (Decidable (t.current < U64 ∧ t.highwater < U64 ∧ t.total_started < U64 ∧
    t.total_completed < U64 ∧ t.success < U64 ∧ t.errors.Valid))

/-- The counter updates of `Start`.  The returned context is identified by the position
of the call; its time stamp is not modelled. -/
def Start (t : TaskMonitor) : TaskMonitor :=
  let current := (t.current + 1) % U64
  { t with
    current := current
    total_started := (t.total_started + 1) % U64
    highwater := if current > t.highwater then current else t.highwater }

end TaskMonitor

/-- The slice expression `s[:hi]`: panics unless `0 ≤ hi ≤ len(s)`. -/
def sliceTo (s : GoString) (hi : Int) : Except Panic GoString :=
  if 0 ≤ hi ∧ hi ≤ (s.length : Int) then .ok (s.take hi.toNat) else .error .sliceBounds

/-- The name of a non-nil error before truncation: the class name of a hierarchical
error, the message of any other. -/
def rawName (err : GoError) : GoString :=
  if err.hierarchical then err.className else err.message

/-- Lines 96-98: the name cut to `*maxErrorLength` when it is longer. -/
def truncateName (maxErrorLength : Int) (error_name : GoString) : Except Panic GoString :=
  if (error_name.length : Int) > maxErrorLength then sliceTo error_name maxErrorLength
  else .ok error_name

/-- Lines 89-100 for a non-nil error: the key under which it is counted. -/
def errorName (env : Env) (err : GoError) : Except Panic GoString :=
  match truncateName env.maxErrorLength (rawName err) with
  | .ok name => .ok (env.SanitizeName name)
  | .error p => .error p

/-- The statement `n -= 1` on a `uint64`: `0` wraps around to `2 ^ 64 - 1`. -/
def decr64 (n : Nat) : Nat :=
  if n = 0 then U64 - 1 else n - 1

/-- The locked section of `Finish` and the timing update after it. -/
def finishUpdate (t : TaskMonitor) (key : Option GoString) (duration : Int) : TaskMonitor :=
  let t1 := { t with
    current := decr64 t.current
    total_completed := (t.total_completed + 1) % U64 }
  let t2 : TaskMonitor :=
    match key with
    | some error_name =>
      { t1 with errors := t1.errors.set error_name ((t1.errors.get error_name + 1) % U64) }
    | none => { t1 with success := (t1.success + 1) % U64 }
  { t2 with timing := t2.timing ++ [duration] }

/-- The method `TaskCtx.Finish` on a context of monitor `t`; `duration` is the reading of
`time.Since(c.start)`. -/
def Finish (env : Env) (t : TaskMonitor) (err : Option GoError) (duration : Int) :
    Except Panic TaskMonitor :=
  match err with
  | none => .ok (finishUpdate t none duration)
  | some e =>
    match errorName env e with
    | .ok error_name => .ok (finishUpdate t (some error_name) duration)
    | .error p => .error p

/-! ## `Stats` -/

/-- The second argument of the callback.  A counter reaches it through the conversion
`float64(n)`; a timing statistic is a `float64` of the accumulator handed on untouched.
The carrier `F` of the accumulator's values is left abstract. -/
inductive Metric (F : Type) where
  /-- The value `float64(n)` of a counter `n`. -/
  | ofUint64 (n : Nat)
  /-- A value produced by the timing accumulator. -/
  | ofFloat (v : F)
deriving DecidableEq, Repr

/-- Modelled from the spec: `ValueMonitor.Stats` is not part of `tasks.go`.  It is a
read-only snapshot that hands name/value pairs to its callback; `emitted` is the sequence
of pairs of one such snapshot, here threaded through a callback with state `σ`. -/
def ValueMonitor.Stats {F σ : Type} (emitted : List (GoString × F))
    (cb : GoString → F → σ → σ) (acc : σ) : σ :=
  emitted.foldl (fun a p => cb p.1 p.2 a) acc

/-- The library function `sort.Strings`: ascending bytewise order. -/
def sortStrings (l : List GoString) : List GoString :=
  l.insertionSort (· ≤ ·)

/-- Lines 60-63: the copy of the map made under the lock. -/
def copyMap (m : ErrMap) : ErrMap :=
  m.foldl (fun error_counts e => error_counts.set e.1 e.2) []

/-- The method `TaskMonitor.Stats`.  The callback acts on a state of its own, `σ`;
the result is the monitor after the call together with the callback's final state. -/
def TaskMonitor.Stats {F σ : Type} (t : TaskMonitor) (timingStats : List (GoString × F))
    (cb : GoString → Metric F → σ → σ) (acc : σ) : TaskMonitor × σ :=
  let current := t.current
  let highwater := t.highwater
  let total_started := t.total_started
  let total_completed := t.total_completed
  let success := t.success
  let error_counts := copyMap t.errors
  let errors := sortStrings error_counts.keys
  let acc := cb (lit "current") (.ofUint64 current) acc
  let acc := errors.foldl
    (fun a error => cb (lit "error_" ++ error) (.ofUint64 (error_counts.get error)) a) acc
  let acc := cb (lit "highwater") (.ofUint64 highwater) acc
  let acc := cb (lit "success") (.ofUint64 success) acc
  let acc := ValueMonitor.Stats timingStats
    (fun name val a => if name ≠ lit "count" then cb (lit "time_" ++ name) (.ofFloat val) a else a)
    acc
  let acc := cb (lit "total_completed") (.ofUint64 total_completed) acc
  let acc := cb (lit "total_started") (.ofUint64 total_started) acc
  (t, acc)

/-- The callback that writes down every call it receives, in order. -/
def record {F : Type} (name : GoString) (val : Metric F) (log : List (GoString × Metric F)) :
    List (GoString × Metric F) :=
  log ++ [(name, val)]

/-- The sequence of callbacks `Stats` makes. -/
def statsLog {F : Type} (t : TaskMonitor) (timingStats : List (GoString × F)) :
    List (GoString × Metric F) :=
  (t.Stats timingStats record []).2

/-! ## Call sequences -/

/-- One call on the monitor.  A context is named by the number of the `Start` that
returned it (the first `Start` returns context `0`). -/
inductive Call where
  | start
  | finish (ctx : Nat) (err : Option GoError) (duration : Int)
deriving DecidableEq, Repr

/-- One call applied to the monitor. -/
def step (env : Env) (t : TaskMonitor) : Call → Except Panic TaskMonitor
  | .start => .ok t.Start
  | .finish _ err duration => Finish env t err duration

/-- A sequence of calls, stopping at the first panic. -/
def run (env : Env) (t : TaskMonitor) : List Call → Except Panic TaskMonitor
  | [] => .ok t
  | c :: cs =>
    match step env t c with
    | .ok t' => run env t' cs
    | .error p => .error p

/-- The states the monitor passes through during a sequence of calls, the initial
one included, up to the first panic. -/
def history (env : Env) (t : TaskMonitor) : List Call → List TaskMonitor
  | [] => [t]
  | c :: cs =>
    match step env t c with
    | .ok t' => t :: history env t' cs
    | .error _ => [t]

/-- Well-formed use, checked from a point where `issued` contexts have been returned and
those in `finished` consumed: every `Finish` is on a context already returned and
not yet finished. -/
def wellFormedFrom (issued : Nat) (finished : List Nat) : List Call → Bool
  | [] => true
  | .start :: cs => wellFormedFrom (issued + 1) finished cs
  | .finish ctx _ _ :: cs =>
    decide (ctx < issued) && !finished.contains ctx && wellFormedFrom issued (ctx :: finished) cs

/-- Each `Finish` consumes a distinct context returned by an earlier `Start`. -/
def WellFormed (calls : List Call) : Prop :=
  wellFormedFrom 0 [] calls = true

instance (calls : List Call) : Decidable (WellFormed calls) :=
  inferInstanceAs (Decidable (wellFormedFrom 0 [] calls = true))

/-- Number of `Start` calls. -/
def starts : List Call → Nat
  | [] => 0
  | .start :: cs => starts cs + 1
  | .finish _ _ _ :: cs => starts cs

/-- The contexts on which `Finish` is called, in call order. -/
def finishedCtxs : List Call → List Nat
  | [] => []
  | .start :: cs => finishedCtxs cs
  | .finish ctx _ _ :: cs => ctx :: finishedCtxs cs

/-- Quiescence: every context the sequence's `Start` calls returned has been finished. -/
def Quiescent (calls : List Call) : Prop :=
  ∀ ctx < starts calls, ctx ∈ finishedCtxs calls

instance (calls : List Call) : Decidable (Quiescent calls) :=
  inferInstanceAs (Decidable (∀ ctx < starts calls, ctx ∈ finishedCtxs calls))

/-- Largest value of `current` in a list of states. -/
def maxCurrent (states : List TaskMonitor) : Nat :=
  (states.map (·.current)).foldr max 0

/-- Number of `Finish` calls. -/
def finishes (calls : List Call) : Nat :=
  (finishedCtxs calls).length

/-- With `n` contexts in flight, every `Finish` of the sequence finds at least one
context in flight. -/
def Balanced : Nat → List Call → Prop
  | _, [] => True
  | n, .start :: cs => Balanced (n + 1) cs
  | n, .finish _ _ _ :: cs => 1 ≤ n ∧ Balanced (n - 1) cs

/-- The relation that `Start` and `Finish` keep between the counters and the number `n` of
contexts in flight: `current` is `n` modulo `2 ^ 64`, `highwater` is at least `current`,
and `highwater` has reached its largest value once `n` has. -/
def HwInv (t : TaskMonitor) (n : Nat) : Prop :=
  t.current = n % U64 ∧ t.highwater < U64 ∧ t.current ≤ t.highwater ∧
    (U64 ≤ n + 1 → t.highwater + 1 = U64)

/-- The callbacks of `Stats` as the specification lists them: `current`; one
`error_<class>` per key in ascending order; `highwater`; `success`; the timing pairs
other than `count`, named `time_<name>`, in the order of the accumulator;
`total_completed`; `total_started`. -/
def specCallbacks {F : Type} (t : TaskMonitor) (timingStats : List (GoString × F)) :
    List (GoString × Metric F) :=
  [(lit "current", .ofUint64 t.current)] ++
    (sortStrings t.errors.keys).map (fun k => (lit "error_" ++ k, .ofUint64 (t.errors.get k))) ++
    [(lit "highwater", .ofUint64 t.highwater), (lit "success", .ofUint64 t.success)] ++
    (timingStats.filter (fun p => p.1 ≠ lit "count")).map
      (fun p => (lit "time_" ++ p.1, .ofFloat p.2)) ++
    [(lit "total_completed", .ofUint64 t.total_completed),
      (lit "total_started", .ofUint64 t.total_started)]

/-- Whether a metric name begins with `error_`. -/
def isErrorName (name : GoString) : Bool :=
  name.take 6 == lit "error_"

/-- The `error_<class>` callbacks among a sequence of callbacks. -/
def errorCallbacks {F : Type} (log : List (GoString × Metric F)) : List (GoString × Metric F) :=
  log.filter (fun p => isErrorName p.1)

/-- The default configuration: length limit `40`; `SanitizeName` taken to be the
identity for the examples. -/
def defaultEnv : Env :=
  { maxErrorLength := 40, SanitizeName := id }

/-- A hierarchical error of the given class. -/
def errWithClass (cls : GoString) : GoError :=
  { hierarchical := true, className := cls, message := [] }

/-- A plain error with the given message. -/
def errWithMessage (msg : GoString) : GoError :=
  { hierarchical := false, className := [], message := msg }

/-- Three tasks that fail with the classes `zeta`, `alpha` and `beta`, in this order. -/
def zetaAlphaBeta : List Call :=
  [.start, .start, .start,
    .finish 0 (some (errWithClass (lit "zeta"))) 1,
    .finish 1 (some (errWithClass (lit "alpha"))) 1,
    .finish 2 (some (errWithClass (lit "beta"))) 1]

/-- The monitor after `zetaAlphaBeta`. -/
def afterZetaAlphaBeta : TaskMonitor :=
  { current := 0, highwater := 3, total_started := 3, total_completed := 3, success := 0,
    timing := [1, 1, 1],
    errors := [(lit "zeta", 1), (lit "alpha", 1), (lit "beta", 1)] }

/-- A snapshot of a timing accumulator with two samples, as name/value pairs (values
written as natural numbers). -/
def sampleTiming : List (GoString × Nat) :=
  [(lit "avg", 5), (lit "count", 2), (lit "max", 7)]

/-- Number of characters of a UTF-8 encoded string: the bytes that are not continuation
bytes (`0x80` to `0xBF`). -/
def runeCount (s : GoString) : Nat :=
  (s.filter (fun b => b.val < 128 || 192 ≤ b.val)).length

/-- The message made of 21 times the two-byte character U+00E9: 21 characters, 42 bytes. -/
def accentedName : GoString :=
  (List.replicate 21 [195, 169]).flatten

/-- A well-formed sequence long enough for `total_started` to wrap around:
`2 ^ 64` calls of `Start`, then `Finish(nil)` on the first context. -/
def overflowCalls : List Call :=
  List.replicate U64 .start ++ [.finish 0 none 0]

/-- The first `n` characters of a UTF-8 encoded string: a continuation byte (`0x80` to
`0xBF`) stays with the character before it, every other byte begins a character. -/
def takeRunes : Nat → GoString → GoString
  | _, [] => []
  | n, b :: rest =>
    if 128 ≤ b.val ∧ b.val < 192 then b :: takeRunes n rest
    else
      match n with
      | 0 => []
      | n + 1 => b :: takeRunes n rest

/-- Two tasks are started and both fail, the first with `e₁`, the second with `e₂`. -/
def twoFailures (e₁ e₂ : GoError) (d₁ d₂ : Int) : List Call :=
  [.start, .start, .finish 0 (some e₁) d₁, .finish 1 (some e₂) d₂]

/-- The monitor that `n` calls of `Start` make of a fresh one: `current` and
`total_started` are `n` modulo `2 ^ 64`, `highwater` stops at `2 ^ 64 - 1`. -/
def afterStarts (n : Nat) : TaskMonitor :=
  { current := n % U64, highwater := if n < U64 then n else U64 - 1,
    total_started := n % U64, total_completed := 0, success := 0, timing := [], errors := [] }

/-- The contexts that were returned by a `Start` of the sequence and not finished in it. -/
def inFlight (calls : List Call) : List Nat :=
  (List.range (starts calls)).filter (fun ctx => ctx ∉ finishedCtxs calls)

/-- A well-formed sequence of `n` calls of `Start` followed by one `Finish(nil)` on each
of the `n` contexts. -/
def startAllFinishAll (n : Nat) : List Call :=
  List.replicate n .start ++ (List.range' 0 n).map (fun ctx => .finish ctx none 0)

/-! ## `MonitorGroup.WrapNamed` -/

/-- A value held by the registry of a group: a `*TaskMonitor`, given by the state of the
monitor it points to, or a monitor of another type. -/
inductive Entry where
  | task (t : TaskMonitor)
  | other
deriving DecidableEq, Repr

/-- The registry of a group: the values registered, by name. -/
abbrev Registry := List (GoString × Entry)

/-- The value registered under a name, if any. -/
def Registry.find : Registry → GoString → Option Entry
  | [], _ => none
  | (k, e) :: rest, name => if k = name then some e else Registry.find rest name

/-- The registry with the value under `name` replaced by `e` (added when absent). -/
def Registry.put : Registry → GoString → Entry → Registry
  | [], name, e => [(name, e)]
  | (k, e₀) :: rest, name, e =>
    if k = name then (k, e) :: rest else (k, e₀) :: Registry.put rest name e

/-- Modelled from the spec: the registry's `Get` is not part of `tasks.go`.  It is a
get-or-create cache keyed by name: an existing value is returned as it is, a missing one
is made by the factory and registered.  `failure` is the error the lookup reports, if
any; what makes a lookup fail is outside this file. -/
def Registry.Get (failure : Option GoString) (monitors : Registry) (name : GoString)
    (make : Entry) : Except GoString (Entry × Registry) :=
  match failure with
  | some err => .error err
  | none =>
    match monitors.find name with
    | some e => .ok (e, monitors)
    | none => .ok (make, monitors.put name make)

/-- The field of `MonitorGroup` that `WrapNamed` uses. -/
structure MonitorGroup where
  monitors : Registry
deriving DecidableEq, Repr

/-- An argument of a call of `handleError`. -/
inductive Reported where
  /-- The error returned by the registry. -/
  | lookupError (err : GoString)
  /-- The `ProgrammerError` "monitor already exists with different type for name ...". -/
  | wrongType (name : GoString)
deriving DecidableEq, Repr

/-- The function value returned by `WrapNamed`: `func(error) {}`, or the method value
`ctx.Finish` of a context of the monitor registered under `name`. -/
inductive Wrapped where
  | noop
  | finish (name : GoString)
deriving DecidableEq, Repr

/-- The outcome of a call of `WrapNamed`: the group afterwards, the calls of
`handleError` made, and the function returned. -/
structure WrapResult where
  group : MonitorGroup
  reported : List Reported
  wrapped : Wrapped
deriving DecidableEq, Repr

/-- The method `MonitorGroup.WrapNamed`. -/
def MonitorGroup.WrapNamed (env : Env) (failure : Option GoString) (self : MonitorGroup)
    (name : GoString) : WrapResult :=
  let name := env.SanitizeName name
  match Registry.Get failure self.monitors name (.task NewTaskMonitor) with
  | .error err => { group := self, reported := [.lookupError err], wrapped := .noop }
  | .ok (monitor, monitors) =>
    match monitor with
    | .task task_monitor =>
      { group := { monitors := monitors.put name (.task task_monitor.Start) },
        reported := [], wrapped := .finish name }
    | .other =>
      { group := { monitors := monitors }, reported := [.wrongType name], wrapped := .noop }

/-- A call of the function returned by `WrapNamed`, with the error `err`. -/
def Wrapped.call (env : Env) (w : Wrapped) (g : MonitorGroup) (err : Option GoError)
    (duration : Int) : Except Panic MonitorGroup :=
  match w with
  | .noop => .ok g
  | .finish name =>
    match g.monitors.find name with
    | some (.task t) =>
      match Finish env t err duration with
      | .ok t' => .ok { monitors := g.monitors.put name (.task t') }
      | .error p => .error p
    | _ => .ok g

/-- A group with a task monitor `db.query` and a monitor of another type `latency`. -/
def sampleGroup : MonitorGroup :=
  { monitors := [(lit "db.query", .task (TaskMonitor.mk 0 2 5 5 4 [3, 1, 4, 1, 5]
      [(lit "Timeout", 1)])), (lit "latency", .other)] }

/-- A well-formed sequence in which `n + 1` tasks are started, the first `n` of them
succeed and the last one fails with `e`. -/
def allButLastSucceed (n : Nat) (e : GoError) : List Call :=
  List.replicate (n + 1) .start ++
    ((List.range' 0 n).map (fun ctx => Call.finish ctx none 0) ++ [.finish n (some e) 0])

/-- A well-formed sequence long enough for `success` plus the error counts to pass
`2 ^ 64`: of `2 ^ 64` tasks all succeed but the last, which fails with class `Timeout`. -/
def outcomeOverflowCalls : List Call :=
  allButLastSucceed (U64 - 1) (errWithClass (lit "Timeout"))

/-- A configuration with the length limit `3`, `SanitizeName` being the identity. -/
def shortLimitEnv : Env :=
  { maxErrorLength := 3, SanitizeName := id }

/-! ## Lemmas on the map -/

namespace ErrMap

theorem get_set_self (m : ErrMap) (k : GoString) (v : Nat) : (m.set k v).get k = v := by
  induction m with
  | nil => simp [set, get]
  | cons e rest ih =>
    obtain ⟨k', v'⟩ := e
    by_cases h : k' = k
    · simp [set, get, h]
    · simp [set, get, h, ih]

theorem get_set_ne (m : ErrMap) {k k₀ : GoString} (v : Nat) (h : k₀ ≠ k) :
    (m.set k v).get k₀ = m.get k₀ := by
  induction m with
  | nil => simp [set, get, h.symm]
  | cons e rest ih =>
    obtain ⟨k', v'⟩ := e
    by_cases h' : k' = k
    · subst h'
      have : ¬ k' = k₀ := fun e => h e.symm
      simp [set, get, this]
    · by_cases h'' : k' = k₀
      · subst h''
        simp [set, get, h']
      · simp [set, get, h', h'', ih]

theorem keys_set (m : ErrMap) (k : GoString) (v : Nat) :
    (m.set k v).keys = if k ∈ m.keys then m.keys else m.keys ++ [k] := by
  induction m with
  | nil => simp [set, keys]
  | cons e rest ih =>
    obtain ⟨k', v'⟩ := e
    by_cases h : k' = k
    · subst h
      simp [set, keys]
    · have hne : ¬ k = k' := fun e => h e.symm
      simp only [keys] at ih
      by_cases hk : k ∈ rest.map Prod.fst
      · simp [set, keys, h, hne, hk, ih]
      · simp [set, keys, h, hne, hk, ih]

theorem total_set (m : ErrMap) (k : GoString) (v : Nat) :
    (m.set k v).total + m.get k = m.total + v := by
  induction m with
  | nil => simp [set, get, total]
  | cons e rest ih =>
    obtain ⟨k', v'⟩ := e
    by_cases h : k' = k
    · simp [set, get, total, h]
      omega
    · simp only [total] at ih
      simp [set, get, total, h]
      omega

theorem get_le_total (m : ErrMap) (k : GoString) : m.get k ≤ m.total := by
  induction m with
  | nil => simp [get]
  | cons e rest ih =>
    obtain ⟨k', v'⟩ := e
    simp only [total] at ih
    by_cases h : k' = k
    · simp [get, total, h]
    · simp [get, total, h]
      omega

theorem get_eq_zero_of_not_mem (m : ErrMap) {k : GoString} (h : k ∉ m.keys) : m.get k = 0 := by
  induction m with
  | nil => rfl
  | cons e rest ih =>
    obtain ⟨k', v'⟩ := e
    simp only [keys, List.map_cons, List.mem_cons, not_or] at h
    have h1 : ¬ k' = k := fun e => h.1 e.symm
    simp only [get, h1, if_false]
    exact ih h.2

theorem mem_set {m : ErrMap} {k : GoString} {v : Nat} {e : GoString × Nat}
    (h : e ∈ m.set k v) : e ∈ m ∨ e = (k, v) := by
  induction m with
  | nil => simpa [set] using h
  | cons e' rest ih =>
    obtain ⟨k', v'⟩ := e'
    by_cases hk : k' = k
    · simp only [set, hk, if_true, List.mem_cons] at h
      rcases h with h | h
      · exact Or.inr h
      · exact Or.inl (List.mem_cons_of_mem _ h)
    · simp only [set, hk, if_false, List.mem_cons] at h
      rcases h with h | h
      · exact Or.inl (h ▸ List.mem_cons_self _ _)
      · rcases ih h with h | h
        · exact Or.inl (List.mem_cons_of_mem _ h)
        · exact Or.inr h

theorem Valid.set {m : ErrMap} (hm : m.Valid) (k : GoString) {v : Nat} (hv : v < U64) :
    (m.set k v).Valid := by
  refine ⟨?_, ?_⟩
  · rw [keys_set]
    split
    · exact hm.1
    · rename_i hk
      exact List.Nodup.append hm.1 (List.nodup_singleton k) (by simpa using hk)
  · intro e he
    rcases mem_set he with h | h
    · exact hm.2 e h
    · subst h; exact hv

theorem valid_nil : ErrMap.Valid [] := by
  simp [Valid, keys]

end ErrMap

/-! ## Lemmas on steps and runs -/

theorem step_ok_cases {env : Env} {t t' : TaskMonitor} {c : Call} (h : step env t c = .ok t') :
    (c = .start ∧ t' = t.Start) ∨
      (∃ ctx d, c = .finish ctx none d ∧ t' = finishUpdate t none d) ∨
      (∃ ctx e d key, c = .finish ctx (some e) d ∧ errorName env e = .ok key ∧
        t' = finishUpdate t (some key) d) := by
  cases c with
  | start =>
    simp only [step, Except.ok.injEq] at h
    exact Or.inl ⟨rfl, h.symm⟩
  | finish ctx err d =>
    cases err with
    | none =>
      simp only [step, Finish, Except.ok.injEq] at h
      exact Or.inr (Or.inl ⟨ctx, d, rfl, h.symm⟩)
    | some e =>
      simp only [step, Finish] at h
      cases hk : errorName env e with
      | error p => rw [hk] at h; cases h
      | ok key =>
        rw [hk] at h
        simp only [Except.ok.injEq] at h
        exact Or.inr (Or.inr ⟨ctx, e, d, key, rfl, hk, h.symm⟩)

theorem run_cons_ok {env : Env} {t t' : TaskMonitor} {c : Call} {cs : List Call}
    (h : run env t (c :: cs) = .ok t') :
    ∃ t₁, step env t c = .ok t₁ ∧ run env t₁ cs = .ok t' := by
  simp only [run] at h
  cases hs : step env t c with
  | error p => rw [hs] at h; cases h
  | ok t₁ => rw [hs] at h; exact ⟨t₁, rfl, h⟩

/-- Every state of the history is the result of running an initial segment. -/
theorem mem_history {env : Env} {calls : List Call} {t s : TaskMonitor}
    (h : s ∈ history env t calls) : ∃ k, run env t (calls.take k) = .ok s := by
  induction calls generalizing t with
  | nil =>
    simp only [history, List.mem_singleton] at h
    exact ⟨0, by simp [run, h]⟩
  | cons c cs ih =>
    simp only [history] at h
    cases hs : step env t c with
    | error p =>
      rw [hs] at h
      simp only [List.mem_singleton] at h
      exact ⟨0, by simp [run, h]⟩
    | ok t₁ =>
      rw [hs] at h
      simp only [List.mem_cons] at h
      rcases h with h | h
      · exact ⟨0, by simp [run, h]⟩
      · obtain ⟨k, hk⟩ := ih h
        exact ⟨k + 1, by simp [run, hs, hk]⟩

theorem finishes_take_le (calls : List Call) (k : Nat) :
    finishes (calls.take k) ≤ finishes calls := by
  induction calls generalizing k with
  | nil => simp
  | cons c cs ih =>
    cases k with
    | zero => simp [finishes, finishedCtxs]
    | succ k =>
      have := ih k
      cases c <;> simp [finishes, finishedCtxs] at this ⊢ <;> omega

/-! ## Outcome counters (C1) -/

theorem step_outcome_mod {env : Env} {t t' : TaskMonitor} {c : Call}
    (h : step env t c = .ok t')
    (inv : (t.success + t.errors.total) % U64 = t.total_completed) :
    (t'.success + t'.errors.total) % U64 = t'.total_completed := by
  rcases step_ok_cases h with ⟨-, rfl⟩ | ⟨_, d, -, rfl⟩ | ⟨_, _, d, key, -, -, rfl⟩
  · simpa [TaskMonitor.Start] using inv
  · simp only [finishUpdate, U64] at inv ⊢
    omega
  · have ht := ErrMap.total_set t.errors key ((t.errors.get key + 1) % U64)
    simp only [finishUpdate, U64] at inv ht ⊢
    omega

theorem run_outcome_mod {env : Env} {calls : List Call} {t t' : TaskMonitor}
    (h : run env t calls = .ok t')
    (inv : (t.success + t.errors.total) % U64 = t.total_completed) :
    (t'.success + t'.errors.total) % U64 = t'.total_completed := by
  induction calls generalizing t with
  | nil =>
    simp only [run, Except.ok.injEq] at h
    subst h; exact inv
  | cons c cs ih =>
    obtain ⟨t₁, h1, h2⟩ := run_cons_ok h
    exact ih h2 (step_outcome_mod h1 inv)

theorem run_outcome_exact {env : Env} {calls : List Call} {t t' : TaskMonitor}
    (h : run env t calls = .ok t')
    (inv : t.success + t.errors.total = t.total_completed)
    (room : t.total_completed + finishes calls < U64) :
    t'.success + t'.errors.total = t'.total_completed := by
  induction calls generalizing t with
  | nil =>
    simp only [run, Except.ok.injEq] at h
    subst h; exact inv
  | cons c cs ih =>
    obtain ⟨t₁, h1, h2⟩ := run_cons_ok h
    rcases step_ok_cases h1 with ⟨rfl, rfl⟩ | ⟨_, d, rfl, rfl⟩ | ⟨_, _, d, key, rfl, -, rfl⟩
    · apply ih h2
      · simpa [TaskMonitor.Start] using inv
      · simpa [TaskMonitor.Start, finishes, finishedCtxs] using room
    · simp only [finishes, finishedCtxs, List.length_cons, U64] at room
      apply ih h2
      · simp only [finishUpdate, U64] at inv ⊢
        omega
      · simp only [finishUpdate, finishes, U64] at inv ⊢
        omega
    · simp only [finishes, finishedCtxs, List.length_cons, U64] at room
      have ht := ErrMap.total_set t.errors key ((t.errors.get key + 1) % U64)
      have hl := ErrMap.get_le_total t.errors key
      apply ih h2
      · simp only [finishUpdate, U64] at inv ht ⊢
        omega
      · simp only [finishUpdate, finishes, U64] at inv ⊢
        omega

/-- C1, amended. In every state a fresh monitor passes through under any sequence of
`Start` and `Finish` calls (nil or non-nil errors, matched or not), `success` plus the sum
of all counts in `errors` equals `total_completed` modulo `2 ^ 64`; while fewer than
`2 ^ 64` `Finish` calls have been made the two are equal as natural numbers. -/
theorem outcome_sum_eq_total_completed (env : Env) (calls : List Call) :
    ∀ s ∈ history env NewTaskMonitor calls,
      (s.success + s.errors.total) % U64 = s.total_completed ∧
      (finishes calls < U64 → s.success + s.errors.total = s.total_completed) := by
  intro s hs
  obtain ⟨k, hk⟩ := mem_history hs
  refine ⟨run_outcome_mod hk (by decide), fun hlt => ?_⟩
  refine run_outcome_exact hk (by decide) ?_
  have := finishes_take_le calls k
  simp only [NewTaskMonitor]
  omega

/-- C1 (amended) at a concrete run: one success and one error of class `Timeout`. -/
theorem outcome_sum_eq_total_completed_witness :
    (1 + ErrMap.total [(lit "Timeout", 1)]) % U64 = 2 ∧
      (finishes [.start, .finish 0 none 5, .start,
          .finish 1 (some (errWithClass (lit "Timeout"))) 7] < U64 →
        1 + ErrMap.total [(lit "Timeout", 1)] = 2) :=
  outcome_sum_eq_total_completed defaultEnv
    [.start, .finish 0 none 5, .start, .finish 1 (some (errWithClass (lit "Timeout"))) 7]
    { current := 0, highwater := 1, total_started := 2, total_completed := 2, success := 1,
      timing := [5, 7], errors := [(lit "Timeout", 1)] }
    (by decide)

/-! ## Well-formed sequences and the number of contexts in flight -/

theorem length_le_of_nodup_of_lt {l : List Nat} {n : Nat} (hd : l.Nodup)
    (hb : ∀ c ∈ l, c < n) : l.length ≤ n := by
  have hsub : l ⊆ List.range n := fun c hc => List.mem_range.mpr (hb c hc)
  simpa using (List.subperm_of_subset hd hsub).length_le

theorem wellFormedFrom_finished {calls : List Call} {issued : Nat} {finished : List Nat}
    (h : wellFormedFrom issued finished calls = true) (hd : finished.Nodup)
    (hb : ∀ c ∈ finished, c < issued) :
    (finishedCtxs calls ++ finished).Nodup ∧
      ∀ c ∈ finishedCtxs calls ++ finished, c < issued + starts calls := by
  induction calls generalizing issued finished with
  | nil => simpa [finishedCtxs, starts] using ⟨hd, hb⟩
  | cons c cs ih =>
    cases c with
    | start =>
      simp only [wellFormedFrom] at h
      have := ih h hd (fun c hc => Nat.lt_succ_of_lt (hb c hc))
      simp only [finishedCtxs, starts] at this ⊢
      refine ⟨this.1, fun c hc => ?_⟩
      have := this.2 c hc
      omega
    | finish ctx err d =>
      simp only [wellFormedFrom, Bool.and_eq_true, decide_eq_true_eq, Bool.not_eq_true',
        List.contains_eq_any_beq, List.any_eq_false, beq_iff_eq] at h
      obtain ⟨⟨hlt, hnot⟩, hrest⟩ := h
      have hnm : ctx ∉ finished := fun hm => hnot ctx hm rfl
      have hd' : (ctx :: finished).Nodup := List.nodup_cons.mpr ⟨hnm, hd⟩
      have hb' : ∀ c ∈ ctx :: finished, c < issued := by
        intro c hc
        rcases List.mem_cons.mp hc with rfl | hc
        · exact hlt
        · exact hb c hc
      obtain ⟨h1, h2⟩ := ih hrest hd' hb'
      have hperm : (finishedCtxs cs ++ ctx :: finished).Perm (ctx :: (finishedCtxs cs ++ finished)) :=
        List.perm_middle
      refine ⟨by simpa [finishedCtxs] using hperm.nodup_iff.mp h1, fun c hc => ?_⟩
      have hc' : c ∈ finishedCtxs cs ++ ctx :: finished := by
        simp only [finishedCtxs, List.cons_append] at hc
        exact hperm.mem_iff.mpr hc
      have := h2 c hc'
      simpa [starts] using this

theorem wellFormedFrom_balanced {calls : List Call} {issued : Nat} {finished : List Nat}
    (h : wellFormedFrom issued finished calls = true) (hd : finished.Nodup)
    (hb : ∀ c ∈ finished, c < issued) : Balanced (issued - finished.length) calls := by
  induction calls generalizing issued finished with
  | nil => trivial
  | cons c cs ih =>
    have hlen := length_le_of_nodup_of_lt hd hb
    cases c with
    | start =>
      simp only [wellFormedFrom] at h
      have := ih h hd (fun c hc => Nat.lt_succ_of_lt (hb c hc))
      simp only [Balanced]
      have e : issued + 1 - finished.length = issued - finished.length + 1 := by omega
      rwa [e] at this
    | finish ctx err d =>
      simp only [wellFormedFrom, Bool.and_eq_true, decide_eq_true_eq, Bool.not_eq_true',
        List.contains_eq_any_beq, List.any_eq_false, beq_iff_eq] at h
      obtain ⟨⟨hlt, hnot⟩, hrest⟩ := h
      have hnm : ctx ∉ finished := fun hm => hnot ctx hm rfl
      have hd' : (ctx :: finished).Nodup := List.nodup_cons.mpr ⟨hnm, hd⟩
      have hb' : ∀ c ∈ ctx :: finished, c < issued := by
        intro c hc
        rcases List.mem_cons.mp hc with rfl | hc
        · exact hlt
        · exact hb c hc
      have hlen' := length_le_of_nodup_of_lt hd' hb'
      have := ih hrest hd' hb'
      simp only [List.length_cons] at this hlen'
      simp only [Balanced]
      refine ⟨by omega, ?_⟩
      have e : issued - (finished.length + 1) = issued - finished.length - 1 := by omega
      rwa [e] at this

theorem WellFormed.balanced {calls : List Call} (h : WellFormed calls) : Balanced 0 calls := by
  simpa using wellFormedFrom_balanced h List.nodup_nil (by simp)

theorem Balanced.take {calls : List Call} {n : Nat} (h : Balanced n calls) (k : Nat) :
    Balanced n (calls.take k) := by
  induction calls generalizing n k with
  | nil => simpa using h
  | cons c cs ih =>
    cases k with
    | zero => trivial
    | succ k =>
      cases c with
      | start => exact ih h k
      | finish ctx err d => exact ⟨h.1, ih h.2 k⟩

/-- In a well-formed sequence there are never more `Finish` calls than `Start` calls. -/
theorem Balanced.finishes_le {calls : List Call} {n : Nat} (h : Balanced n calls) :
    finishes calls ≤ n + starts calls := by
  induction calls generalizing n with
  | nil => simp [finishes, finishedCtxs]
  | cons c cs ih =>
    cases c with
    | start =>
      have := ih h
      simp only [finishes, finishedCtxs, starts, List.length_cons] at this ⊢
      omega
    | finish ctx err d =>
      have := ih h.2
      have h1 := h.1
      simp only [finishes, finishedCtxs, starts, List.length_cons] at this ⊢
      omega

/-- At a quiescent point of a well-formed sequence as many contexts were finished as
were returned. -/
theorem finishes_eq_starts {calls : List Call} (hwf : WellFormed calls) (hq : Quiescent calls) :
    finishes calls = starts calls := by
  obtain ⟨hd, hb⟩ := wellFormedFrom_finished hwf List.nodup_nil (by simp)
  simp only [List.append_nil, Nat.zero_add] at hd hb
  apply Nat.le_antisymm (length_le_of_nodup_of_lt hd hb)
  have hsub : List.range (starts calls) ⊆ finishedCtxs calls :=
    fun c hc => hq c (List.mem_range.mp hc)
  simpa [finishes] using (List.subperm_of_subset (List.nodup_range _) hsub).length_le

/-! ## Counters along a run -/

theorem NewTaskMonitor_valid : NewTaskMonitor.Valid := by
  simp [TaskMonitor.Valid, NewTaskMonitor, ErrMap.valid_nil]

theorem Start_valid {t : TaskMonitor} (h : t.Valid) : t.Start.Valid := by
  obtain ⟨h1, h2, h3, h4, h5, h6⟩ := h
  refine ⟨?_, ?_, ?_, h4, h5, h6⟩
  · exact Nat.mod_lt _ (by decide)
  · simp only [TaskMonitor.Start]
    split
    · exact Nat.mod_lt _ (by decide)
    · exact h2
  · exact Nat.mod_lt _ (by decide)

theorem decr64_lt {n : Nat} (h : n < U64) : decr64 n < U64 := by
  simp only [decr64, U64] at h ⊢
  split <;> omega

theorem finishUpdate_valid {t : TaskMonitor} (h : t.Valid) (key : Option GoString) (d : Int) :
    (finishUpdate t key d).Valid := by
  obtain ⟨h1, h2, h3, h4, h5, h6⟩ := h
  cases key with
  | none =>
    exact ⟨decr64_lt h1, h2, h3, Nat.mod_lt _ (by decide), Nat.mod_lt _ (by decide), h6⟩
  | some k =>
    exact ⟨decr64_lt h1, h2, h3, Nat.mod_lt _ (by decide), h5,
      ErrMap.Valid.set h6 k (Nat.mod_lt _ (by decide))⟩

theorem step_valid {env : Env} {t t' : TaskMonitor} {c : Call} (h : step env t c = .ok t')
    (hv : t.Valid) : t'.Valid := by
  rcases step_ok_cases h with ⟨-, rfl⟩ | ⟨_, d, -, rfl⟩ | ⟨_, _, d, key, -, -, rfl⟩
  · exact Start_valid hv
  · exact finishUpdate_valid hv _ _
  · exact finishUpdate_valid hv _ _

theorem run_valid {env : Env} {calls : List Call} {t t' : TaskMonitor}
    (h : run env t calls = .ok t') (hv : t.Valid) : t'.Valid := by
  induction calls generalizing t with
  | nil =>
    simp only [run, Except.ok.injEq] at h
    subst h; exact hv
  | cons c cs ih =>
    obtain ⟨t₁, h1, h2⟩ := run_cons_ok h
    exact ih h2 (step_valid h1 hv)

/-- With a non-negative length limit the slice expression cannot fail: a longer name is
cut to its first `maxErrorLength` bytes, any other is kept. -/
theorem truncateName_of_nonneg {M : Int} (hM : 0 ≤ M) (name : GoString) :
    truncateName M name =
      .ok (if (name.length : Int) > M then name.take M.toNat else name) := by
  unfold truncateName sliceTo
  by_cases h : (name.length : Int) > M
  · have hb : 0 ≤ M ∧ M ≤ (name.length : Int) := ⟨hM, le_of_lt h⟩
    rw [if_pos h, if_pos hb, if_pos h]
  · rw [if_neg h, if_neg h]

theorem errorName_ok (env : Env) (hM : 0 ≤ env.maxErrorLength) (e : GoError) :
    ∃ key, errorName env e = .ok key := by
  unfold errorName
  rw [truncateName_of_nonneg hM]
  exact ⟨_, rfl⟩

theorem step_ok (env : Env) (hM : 0 ≤ env.maxErrorLength) (t : TaskMonitor) (c : Call) :
    ∃ t', step env t c = .ok t' := by
  cases c with
  | start => exact ⟨_, rfl⟩
  | finish ctx err d =>
    cases err with
    | none => exact ⟨_, rfl⟩
    | some e =>
      obtain ⟨key, hk⟩ := errorName_ok env hM e
      exact ⟨finishUpdate t (some key) d, by simp [step, Finish, hk]⟩

/-- With a non-negative length limit every sequence of calls runs to its end. -/
theorem run_ok (env : Env) (hM : 0 ≤ env.maxErrorLength) (t : TaskMonitor) (calls : List Call) :
    ∃ t', run env t calls = .ok t' := by
  induction calls generalizing t with
  | nil => exact ⟨t, rfl⟩
  | cons c cs ih =>
    obtain ⟨t₁, h1⟩ := step_ok env hM t c
    obtain ⟨t', h2⟩ := ih t₁
    exact ⟨t', by simp [run, h1, h2]⟩

theorem run_total_started {env : Env} {calls : List Call} {t t' : TaskMonitor}
    (h : run env t calls = .ok t') (hv : t.total_started < U64) :
    t'.total_started = (t.total_started + starts calls) % U64 := by
  induction calls generalizing t with
  | nil =>
    simp only [run, Except.ok.injEq] at h
    subst h
    simp only [starts, U64] at hv ⊢
    omega
  | cons c cs ih =>
    obtain ⟨t₁, h1, h2⟩ := run_cons_ok h
    rcases step_ok_cases h1 with ⟨rfl, rfl⟩ | ⟨_, d, rfl, rfl⟩ | ⟨_, _, d, key, rfl, -, rfl⟩
    · have := ih h2 (Nat.mod_lt _ (by decide))
      simp only [TaskMonitor.Start, starts, U64] at this ⊢
      omega
    · have := ih h2 hv
      simpa [finishUpdate, starts] using this
    · have := ih h2 hv
      simpa [finishUpdate, starts] using this

theorem run_total_completed {env : Env} {calls : List Call} {t t' : TaskMonitor}
    (h : run env t calls = .ok t') (hv : t.total_completed < U64) :
    t'.total_completed = (t.total_completed + finishes calls) % U64 := by
  induction calls generalizing t with
  | nil =>
    simp only [run, Except.ok.injEq] at h
    subst h
    simp only [finishes, finishedCtxs, List.length_nil, U64] at hv ⊢
    omega
  | cons c cs ih =>
    obtain ⟨t₁, h1, h2⟩ := run_cons_ok h
    rcases step_ok_cases h1 with ⟨rfl, rfl⟩ | ⟨_, d, rfl, rfl⟩ | ⟨_, _, d, key, rfl, -, rfl⟩
    · have := ih h2 hv
      simpa [TaskMonitor.Start, finishes, finishedCtxs] using this
    · have := ih h2 (Nat.mod_lt _ (by decide))
      simp only [finishUpdate, finishes, finishedCtxs, List.length_cons, U64] at this ⊢
      omega
    · have := ih h2 (Nat.mod_lt _ (by decide))
      simp only [finishUpdate, finishes, finishedCtxs, List.length_cons, U64] at this ⊢
      omega

theorem decr64_mod {n : Nat} (h : 1 ≤ n) : decr64 (n % U64) = (n - 1) % U64 := by
  simp only [decr64, U64]
  split <;> omega

theorem run_current {env : Env} {calls : List Call} {t t' : TaskMonitor} {n : Nat}
    (h : run env t calls = .ok t') (hb : Balanced n calls) (hc : t.current = n % U64) :
    t'.current = (n + starts calls - finishes calls) % U64 := by
  induction calls generalizing t n with
  | nil =>
    simp only [run, Except.ok.injEq] at h
    subst h
    simpa [starts, finishes, finishedCtxs] using hc
  | cons c cs ih =>
    obtain ⟨t₁, h1, h2⟩ := run_cons_ok h
    rcases step_ok_cases h1 with ⟨rfl, rfl⟩ | ⟨_, d, rfl, rfl⟩ | ⟨_, _, d, key, rfl, -, rfl⟩
    · have hc' : t.Start.current = (n + 1) % U64 := by
        simp only [TaskMonitor.Start, U64] at hc ⊢
        omega
      have := ih h2 hb hc'
      simp only [starts, finishes, finishedCtxs] at this ⊢
      rw [this]
      congr 1
      omega
    · have hc' : (finishUpdate t none d).current = (n - 1) % U64 := by
        simp only [finishUpdate, hc]
        exact decr64_mod hb.1
      have := ih h2 hb.2 hc'
      have hle := hb.2.finishes_le
      have h1n := hb.1
      simp only [starts, finishes, finishedCtxs, List.length_cons] at this hle ⊢
      rw [this]
      congr 1
      omega
    · have hc' : (finishUpdate t (some key) d).current = (n - 1) % U64 := by
        simp only [finishUpdate, hc]
        exact decr64_mod hb.1
      have := ih h2 hb.2 hc'
      have hle := hb.2.finishes_le
      have h1n := hb.1
      simp only [starts, finishes, finishedCtxs, List.length_cons] at this hle ⊢
      rw [this]
      congr 1
      omega

/-! ## The high-water mark -/

theorem maxCurrent_cons (t : TaskMonitor) (l : List TaskMonitor) :
    maxCurrent (t :: l) = max t.current (maxCurrent l) := rfl

theorem le_maxCurrent {l : List TaskMonitor} {s : TaskMonitor} (h : s ∈ l) :
    s.current ≤ maxCurrent l := by
  induction l with
  | nil => cases h
  | cons t l ih =>
    rw [maxCurrent_cons]
    rcases List.mem_cons.mp h with rfl | h
    · exact le_max_left _ _
    · exact le_trans (ih h) (le_max_right _ _)

theorem history_head (env : Env) (t : TaskMonitor) (calls : List Call) :
    t ∈ history env t calls := by
  cases calls with
  | nil => simp [history]
  | cons c cs =>
    simp only [history]
    split <;> simp

theorem HwInv.start {t : TaskMonitor} {n : Nat} (h : HwInv t n) :
    HwInv t.Start (n + 1) ∧ t.Start.highwater = max t.highwater t.Start.current := by
  obtain ⟨h1, h2, h3, h4⟩ := h
  simp only [HwInv, TaskMonitor.Start, U64] at h1 h2 h3 h4 ⊢
  split <;> omega

theorem HwInv.finish {t : TaskMonitor} {n : Nat} (h : HwInv t n) (hn : 1 ≤ n)
    (key : Option GoString) (d : Int) :
    HwInv (finishUpdate t key d) (n - 1) ∧ (finishUpdate t key d).highwater = t.highwater := by
  obtain ⟨h1, h2, h3, h4⟩ := h
  have hd := decr64_mod hn
  rw [← h1] at hd
  have hcur : (finishUpdate t key d).current = decr64 t.current := by cases key <;> rfl
  have hhw : (finishUpdate t key d).highwater = t.highwater := by cases key <;> rfl
  refine ⟨⟨by rw [hcur, hd], by rw [hhw]; exact h2, ?_, ?_⟩, hhw⟩
  · rw [hcur, hhw]
    simp only [decr64, U64] at h1 h2 h3 h4 ⊢
    split <;> omega
  · rw [hhw]
    simp only [U64] at h4 ⊢
    omega

theorem run_highwater {env : Env} {calls : List Call} {t t' : TaskMonitor} {n : Nat}
    (h : run env t calls = .ok t') (hb : Balanced n calls) (hi : HwInv t n) :
    t'.highwater = max t.highwater (maxCurrent (history env t calls)) ∧
      t'.current ≤ t'.highwater := by
  induction calls generalizing t n with
  | nil =>
    simp only [run, Except.ok.injEq] at h
    subst h
    have := hi.2.2.1
    have e : maxCurrent (history env t []) = max t.current 0 := rfl
    rw [e]
    exact ⟨by omega, this⟩
  | cons c cs ih =>
    obtain ⟨t₁, h1, h2⟩ := run_cons_ok h
    have hh : history env t (c :: cs) = t :: history env t₁ cs := by simp [history, h1]
    have hcur := hi.2.2.1
    have hhead := le_maxCurrent (history_head env t₁ cs)
    rw [hh, maxCurrent_cons]
    rcases step_ok_cases h1 with ⟨rfl, rfl⟩ | ⟨_, d, rfl, rfl⟩ | ⟨_, _, d, key, rfl, -, rfl⟩
    · obtain ⟨hi', hs⟩ := hi.start
      obtain ⟨e1, e2⟩ := ih h2 hb hi'
      refine ⟨?_, e2⟩
      rw [e1, hs]
      omega
    · obtain ⟨hi', hs⟩ := hi.finish hb.1 none d
      obtain ⟨e1, e2⟩ := ih h2 hb.2 hi'
      refine ⟨?_, e2⟩
      rw [e1, hs]
      omega
    · obtain ⟨hi', hs⟩ := hi.finish hb.1 (some key) d
      obtain ⟨e1, e2⟩ := ih h2 hb.2 hi'
      refine ⟨?_, e2⟩
      rw [e1, hs]
      omega

theorem hwInv_new : HwInv NewTaskMonitor 0 := by
  simp [HwInv, NewTaskMonitor]

theorem starts_take_le (calls : List Call) (k : Nat) :
    starts (calls.take k) ≤ starts calls := by
  induction calls generalizing k with
  | nil => simp
  | cons c cs ih =>
    cases k with
    | zero => simp [starts]
    | succ k =>
      have := ih k
      cases c <;> simp [starts] at this ⊢ <;> omega

theorem wellFormedFrom_replicate (n issued : Nat) (finished : List Nat) (rest : List Call) :
    wellFormedFrom issued finished (List.replicate n .start ++ rest) =
      wellFormedFrom (issued + n) finished rest := by
  induction n generalizing issued with
  | zero => rfl
  | succ n ih =>
    rw [List.replicate_succ, List.cons_append, wellFormedFrom, ih]
    congr 1
    omega

theorem starts_replicate (n : Nat) (rest : List Call) :
    starts (List.replicate n .start ++ rest) = n + starts rest := by
  induction n with
  | zero => simp
  | succ n ih =>
    rw [List.replicate_succ, List.cons_append, starts, ih]
    omega

theorem finishes_replicate (n : Nat) (rest : List Call) :
    finishes (List.replicate n .start ++ rest) = finishes rest := by
  induction n with
  | zero => simp
  | succ n ih =>
    rw [List.replicate_succ, List.cons_append]
    simpa [finishes, finishedCtxs] using ih

/-- The shape of the overflow run for any number `n ≥ 1` of `Start` calls. -/
theorem starts_then_finish (env : Env) (n : Nat) (hn : 0 < n) :
    WellFormed (List.replicate n .start ++ [.finish 0 none 0]) ∧
      ∃ t, run env NewTaskMonitor (List.replicate n .start ++ [.finish 0 none 0]) = .ok t ∧
        t.total_started = n % U64 ∧ t.total_completed = 1 := by
  refine ⟨?_, ?_⟩
  · unfold WellFormed
    rw [wellFormedFrom_replicate]
    simp [wellFormedFrom, hn]
  · have hrun : ∀ (cs : List Call) (t : TaskMonitor),
        (∀ c ∈ cs, c = .start ∨ ∃ ctx d, c = .finish ctx none d) →
        ∃ t', run env t cs = .ok t' := by
      intro cs
      induction cs with
      | nil => exact fun t _ => ⟨t, rfl⟩
      | cons c cs ih =>
        intro t hall
        have hc := hall c (List.mem_cons_self _ _)
        have hrest := fun c' hc' => hall c' (List.mem_cons_of_mem _ hc')
        rcases hc with rfl | ⟨ctx, d, rfl⟩
        · obtain ⟨t', ht'⟩ := ih t.Start hrest
          exact ⟨t', by simpa [run, step] using ht'⟩
        · obtain ⟨t', ht'⟩ := ih (finishUpdate t none d) hrest
          exact ⟨t', by simpa [run, step, Finish] using ht'⟩
    obtain ⟨t, ht⟩ := hrun (List.replicate n .start ++ [.finish 0 none 0]) NewTaskMonitor (by
      intro c hc
      rcases List.mem_append.mp hc with h | h
      · exact Or.inl (List.eq_of_mem_replicate h)
      · exact Or.inr ⟨0, 0, by simpa using h⟩)
    refine ⟨t, ht, ?_, ?_⟩
    · have := run_total_started ht (by decide)
      rw [starts_replicate] at this
      simpa [NewTaskMonitor, starts] using this
    · have := run_total_completed ht (by decide)
      rw [finishes_replicate] at this
      simpa [NewTaskMonitor, finishes, finishedCtxs] using this

/-! ## Claims on well-formed sequences (C2, C3, C4) -/

/-- C2. Under well-formed use (each `Finish` consumes a distinct context returned by an
earlier `Start`), in every state a fresh monitor reaches `highwater` equals the largest
value `current` has had in any state so far; in particular `highwater ≥ current` and
`highwater` is at least every earlier value of `current`. -/
theorem highwater_eq_max_current (env : Env) (calls : List Call) (hwf : WellFormed calls)
    (k : Nat) (t : TaskMonitor) (h : run env NewTaskMonitor (calls.take k) = .ok t) :
    t.highwater = maxCurrent (history env NewTaskMonitor (calls.take k)) ∧
      t.current ≤ t.highwater ∧
      ∀ s ∈ history env NewTaskMonitor (calls.take k), s.current ≤ t.highwater := by
  obtain ⟨e1, e2⟩ := run_highwater h (hwf.balanced.take k) hwInv_new
  have e : t.highwater = maxCurrent (history env NewTaskMonitor (calls.take k)) := by
    rw [e1]
    simp [NewTaskMonitor]
  exact ⟨e, e2, fun s hs => e ▸ le_maxCurrent hs⟩

/-- C2 at a concrete run: two tasks overlap, one ends, a third starts. -/
theorem highwater_eq_max_current_witness :
    WellFormed [.start, .start, .finish 0 none 3, .start] ∧
      (2 : Nat) = maxCurrent (history defaultEnv NewTaskMonitor
        (List.take 4 [.start, .start, .finish 0 none 3, .start])) ∧
      (2 : Nat) ≤ 2 ∧
      ∀ s ∈ history defaultEnv NewTaskMonitor
        (List.take 4 [.start, .start, .finish 0 none 3, .start]), s.current ≤ 2 :=
  ⟨by decide,
    highwater_eq_max_current defaultEnv [.start, .start, .finish 0 none 3, .start] (by decide) 4
      { current := 2, highwater := 2, total_started := 3, total_completed := 1, success := 1,
        timing := [3], errors := [] } rfl⟩

/-- C3. At a quiescent point of a well-formed sequence on a fresh monitor (every context
returned by `Start` has been finished exactly once) `current` is zero and
`total_started` equals `total_completed`. -/
theorem quiescent_counters (env : Env) (calls : List Call) (hwf : WellFormed calls)
    (hq : Quiescent calls) (t : TaskMonitor) (h : run env NewTaskMonitor calls = .ok t) :
    t.current = 0 ∧ t.total_started = t.total_completed := by
  have hfs := finishes_eq_starts hwf hq
  have hc := run_current h hwf.balanced rfl
  have hs := run_total_started h (by decide)
  have hf := run_total_completed h (by decide)
  rw [hfs] at hc hf
  refine ⟨?_, ?_⟩
  · rw [hc]
    simp
  · rw [hs, hf]
    simp [NewTaskMonitor]

/-- C3 at a concrete run: two tasks, the second finished first and with an error. -/
theorem quiescent_counters_witness :
    WellFormed [.start, .start, .finish 1 (some (errWithClass (lit "Timeout"))) 4,
        .finish 0 none 9] ∧
      Quiescent [.start, .start, .finish 1 (some (errWithClass (lit "Timeout"))) 4,
        .finish 0 none 9] ∧
      ((0 : Nat) = 0 ∧ (2 : Nat) = 2) :=
  ⟨by decide, by decide,
    quiescent_counters defaultEnv
      [.start, .start, .finish 1 (some (errWithClass (lit "Timeout"))) 4, .finish 0 none 9]
      (by decide) (by decide)
      { current := 0, highwater := 2, total_started := 2, total_completed := 2, success := 1,
        timing := [4, 9], errors := [(lit "Timeout", 1)] } rfl⟩

/-- C4, as stated, fails once `total_started` wraps around: after `2 ^ 64` calls of
`Start` and one well-formed `Finish` a fresh monitor has `total_started = 0` and
`total_completed = 1`. -/
theorem completed_le_started_overflow :
    WellFormed overflowCalls ∧
      ∃ t, run defaultEnv NewTaskMonitor overflowCalls = .ok t ∧
        t.total_started = 0 ∧ t.total_completed = 1 ∧ ¬ t.total_completed ≤ t.total_started := by
  obtain ⟨hwf, t, ht, hs, hc⟩ := starts_then_finish defaultEnv U64 (by decide)
  rw [Nat.mod_self] at hs
  exact ⟨hwf, t, ht, hs, hc, by rw [hs, hc]; decide⟩

/-- C4, amended. Under well-formed use with fewer than `2 ^ 64` calls of `Start`, in every
state a fresh monitor reaches `total_completed ≤ total_started`. -/
theorem completed_le_started (env : Env) (calls : List Call) (hwf : WellFormed calls)
    (hlt : starts calls < U64) (k : Nat) (t : TaskMonitor)
    (h : run env NewTaskMonitor (calls.take k) = .ok t) :
    t.total_completed ≤ t.total_started := by
  have hs := run_total_started h (by decide)
  have hf := run_total_completed h (by decide)
  have h1 := starts_take_le calls k
  have h2 := (hwf.balanced.take k).finishes_le
  rw [hs, hf]
  simp only [NewTaskMonitor, U64, Nat.zero_add] at hlt ⊢
  rw [Nat.mod_eq_of_lt (by omega), Nat.mod_eq_of_lt (by omega)]
  omega

/-- C4 (amended) at a concrete run, looked at after three of its four calls. -/
theorem completed_le_started_witness :
    WellFormed [.start, .start, .finish 1 none 2, .finish 0 none 6] ∧
      starts [.start, .start, .finish 1 none 2, .finish 0 none 6] < U64 ∧
      (1 : Nat) ≤ 2 :=
  ⟨by decide, by decide,
    completed_le_started defaultEnv [.start, .start, .finish 1 none 2, .finish 0 none 6]
      (by decide) (by decide) 3
      { current := 1, highwater := 2, total_started := 2, total_completed := 1, success := 1,
        timing := [2], errors := [] } rfl⟩

/-! ## The snapshot -/

theorem ErrMap.set_of_not_mem (m : ErrMap) {k : GoString} (v : Nat) (h : k ∉ m.keys) :
    m.set k v = m ++ [(k, v)] := by
  induction m with
  | nil => rfl
  | cons e rest ih =>
    obtain ⟨k', v'⟩ := e
    simp only [ErrMap.keys, List.map_cons, List.mem_cons, not_or] at h
    have h1 : ¬ k' = k := fun e => h.1 e.symm
    simp only [ErrMap.set, h1, if_false, List.cons_append]
    rw [ih h.2]

theorem foldl_set_eq_append (m acc : ErrMap) (hd : (acc ++ m).keys.Nodup) :
    m.foldl (fun error_counts e => error_counts.set e.1 e.2) acc = acc ++ m := by
  induction m generalizing acc with
  | nil => simp
  | cons e rest ih =>
    have hnot : e.1 ∉ acc.keys := by
      intro hmem
      simp only [ErrMap.keys, List.map_append, List.map_cons] at hd hmem
      exact (List.nodup_append.mp hd).2.2 hmem (List.mem_cons_self _ _)
    rw [List.foldl_cons, ErrMap.set_of_not_mem acc e.2 hnot]
    have hd' : (acc ++ [(e.1, e.2)] ++ rest).keys.Nodup := by simpa using hd
    rw [ih _ hd']
    simp

/-- Copying a map entry by entry yields the same map. -/
theorem copyMap_eq_self {m : ErrMap} (hd : m.keys.Nodup) : copyMap m = m := by
  have := foldl_set_eq_append m [] (by simpa using hd)
  simpa [copyMap] using this

theorem valueMonitorStats_filter {F σ : Type} (emitted : List (GoString × F))
    (cb : GoString → Metric F → σ → σ) (acc : σ) :
    ValueMonitor.Stats emitted
        (fun name val a =>
          if name ≠ lit "count" then cb (lit "time_" ++ name) (.ofFloat val) a else a) acc =
      ((emitted.filter (fun p => p.1 ≠ lit "count")).map
        (fun p => (lit "time_" ++ p.1, Metric.ofFloat p.2))).foldl
        (fun a p => cb p.1 p.2 a) acc := by
  unfold ValueMonitor.Stats
  induction emitted generalizing acc with
  | nil => rfl
  | cons e rest ih =>
    by_cases h : e.1 = lit "count"
    · simp only [List.foldl_cons, h, ne_eq, not_true_eq_false, if_false, decide_False,
        List.filter_cons_of_neg, Bool.false_eq_true, not_false_eq_true]
      exact ih acc
    · simp only [List.foldl_cons, h, ne_eq, not_false_eq_true, if_true, decide_True,
        List.filter_cons_of_pos, List.map_cons]
      exact ih _

/-- For every callback, `Stats` returns the monitor it was given and feeds the
callback the callbacks of the specification, in order. -/
theorem Stats_eq {F σ : Type} (t : TaskMonitor) (hd : t.errors.keys.Nodup)
    (timingStats : List (GoString × F)) (cb : GoString → Metric F → σ → σ) (acc : σ) :
    t.Stats timingStats cb acc =
      (t, (specCallbacks t timingStats).foldl (fun a p => cb p.1 p.2 a) acc) := by
  simp only [TaskMonitor.Stats, copyMap_eq_self hd, valueMonitorStats_filter, specCallbacks,
    List.foldl_append, List.foldl_cons, List.foldl_nil, List.foldl_map]

theorem foldl_record {F : Type} (l acc : List (GoString × Metric F)) :
    l.foldl (fun a p => record p.1 p.2 a) acc = acc ++ l := by
  induction l generalizing acc with
  | nil => simp
  | cons e rest ih =>
    rw [List.foldl_cons, ih]
    simp [record]

theorem statsLog_eq {F : Type} (t : TaskMonitor) (hd : t.errors.keys.Nodup)
    (timingStats : List (GoString × F)) : statsLog t timingStats = specCallbacks t timingStats := by
  simp [statsLog, Stats_eq t hd, foldl_record]

theorem isErrorName_error (k : GoString) : isErrorName (lit "error_" ++ k) = true := by
  have e : lit "error_" = [101, 114, 114, 111, 114, 95] := by decide
  simp [isErrorName, e]

theorem isErrorName_time (n : GoString) : isErrorName (lit "time_" ++ n) = false := by
  have e : lit "error_" = [101, 114, 114, 111, 114, 95] := by decide
  have e' : lit "time_" = [116, 105, 109, 101, 95] := by decide
  simp [isErrorName, e, e']

theorem errorCallbacks_specCallbacks {F : Type} (t : TaskMonitor)
    (timingStats : List (GoString × F)) :
    errorCallbacks (specCallbacks t timingStats) =
      (sortStrings t.errors.keys).map
        (fun k => (lit "error_" ++ k, Metric.ofUint64 (t.errors.get k))) := by
  have h1 : ∀ l : List GoString,
      (l.map (fun k => (lit "error_" ++ k, (Metric.ofUint64 (t.errors.get k) : Metric F)))).filter
        (fun p => isErrorName p.1) =
      l.map (fun k => (lit "error_" ++ k, Metric.ofUint64 (t.errors.get k))) := by
    intro l
    refine List.filter_eq_self.mpr (fun p hp => ?_)
    obtain ⟨k, -, rfl⟩ := List.mem_map.mp hp
    exact isErrorName_error k
  have h2 : ∀ l : List (GoString × F),
      (l.map (fun p => (lit "time_" ++ p.1, Metric.ofFloat p.2))).filter
        (fun p => isErrorName p.1) = [] := by
    intro l
    refine List.filter_eq_nil_iff.mpr (fun p hp => ?_)
    obtain ⟨q, -, rfl⟩ := List.mem_map.mp hp
    simp [isErrorName_time]
  have c1 : isErrorName (lit "current") = false := by decide
  have c2 : isErrorName (lit "highwater") = false := by decide
  have c3 : isErrorName (lit "success") = false := by decide
  have c4 : isErrorName (lit "total_completed") = false := by decide
  have c5 : isErrorName (lit "total_started") = false := by decide
  simp only [errorCallbacks, specCallbacks, List.filter_append, h1, h2, List.filter_cons,
    List.filter_nil, c1, c2, c3, c4, c5, Bool.false_eq_true, if_false, List.nil_append,
    List.append_nil]

theorem ErrMap.get_perm {m m' : ErrMap} (hp : m.Perm m') (hd : m.keys.Nodup) (k : GoString) :
    m.get k = m'.get k := by
  induction hp with
  | nil => rfl
  | cons e _ ih =>
    obtain ⟨k', v'⟩ := e
    simp only [ErrMap.keys, List.map_cons, List.nodup_cons] at hd
    simp only [ErrMap.get]
    split
    · rfl
    · exact ih hd.2
  | swap e₁ e₂ l =>
    obtain ⟨k₁, v₁⟩ := e₁
    obtain ⟨k₂, v₂⟩ := e₂
    simp only [ErrMap.keys, List.map_cons, List.nodup_cons, List.mem_cons, not_or] at hd
    simp only [ErrMap.get]
    by_cases h1 : k₁ = k
    · have h2 : ¬ k₂ = k := fun e => hd.1.1 (e.trans h1.symm)
      simp [h1, h2]
    · simp [h1]
  | trans h₁ _ ih₁ ih₂ =>
    rw [ih₁ hd]
    exact ih₂ ((h₁.map Prod.fst).nodup_iff.mp hd)

theorem sortStrings_perm_eq {l l' : List GoString} (hp : l.Perm l') :
    sortStrings l = sortStrings l' := by
  apply List.eq_of_perm_of_sorted (r := (· ≤ ·))
  · exact ((List.perm_insertionSort _ l).trans hp).trans (List.perm_insertionSort _ l').symm
  · exact List.sorted_insertionSort _ l
  · exact List.sorted_insertionSort _ l'

theorem sortStrings_sorted_lt {l : List GoString} (hd : l.Nodup) :
    (sortStrings l).Sorted (· < ·) :=
  (List.sorted_insertionSort (· ≤ ·) l).lt_of_le
    ((List.perm_insertionSort (· ≤ ·) l).nodup_iff.mpr hd)

theorem time_ne_count {n : GoString} (h : n ≠ lit "count") :
    lit "time_" ++ n ≠ lit "time_count" := by
  have e : lit "time_count" = lit "time_" ++ lit "count" := by decide
  rw [e]
  exact fun h' => h (List.append_cancel_left h')

theorem error_ne_count (k : GoString) : lit "error_" ++ k ≠ lit "time_count" := by
  have e : lit "error_" = [101, 114, 114, 111, 114, 95] := by decide
  have e' : lit "time_count" = [116, 105, 109, 101, 95, 99, 111, 117, 110, 116] := by decide
  simp [e, e']

/-! ## Claims on `Stats` (C7, C8, C9) -/

/-- C7. For every monitor state the `error_<class>` callbacks of `Stats` are, in order,
one callback `error_k` carrying the count of `k` for each key `k` of `errors`, the keys
taken in ascending order: each key exactly once, the callback names strictly ascending,
and the same whatever the order of the entries in the map.  After recording `zeta`,
`alpha`, `beta` the names are `error_alpha`, `error_beta`, `error_zeta`. -/
theorem error_callbacks_ascending {F : Type} (t : TaskMonitor) (hv : t.Valid)
    (timingStats : List (GoString × F)) :
    errorCallbacks (statsLog t timingStats) =
        (sortStrings t.errors.keys).map
          (fun k => (lit "error_" ++ k, Metric.ofUint64 (t.errors.get k))) ∧
      (sortStrings t.errors.keys).Perm t.errors.keys ∧
      (sortStrings t.errors.keys).Nodup ∧
      ((errorCallbacks (statsLog t timingStats)).map Prod.fst).Sorted (· < ·) ∧
      (∀ t' : TaskMonitor, t'.errors.Perm t.errors →
        errorCallbacks (statsLog t' timingStats) = errorCallbacks (statsLog t timingStats)) ∧
      (run defaultEnv NewTaskMonitor zetaAlphaBeta = .ok afterZetaAlphaBeta ∧
        (errorCallbacks (statsLog afterZetaAlphaBeta timingStats)).map Prod.fst =
          [lit "error_alpha", lit "error_beta", lit "error_zeta"]) := by
  have hd : t.errors.keys.Nodup := hv.2.2.2.2.2.1
  have hperm := List.perm_insertionSort (· ≤ ·) t.errors.keys
  have hlog : errorCallbacks (statsLog t timingStats) =
      (sortStrings t.errors.keys).map
        (fun k => (lit "error_" ++ k, Metric.ofUint64 (t.errors.get k))) := by
    rw [statsLog_eq t hd, errorCallbacks_specCallbacks]
  refine ⟨hlog, hperm, hperm.nodup_iff.mpr hd, ?_, ?_, rfl, ?_⟩
  · rw [hlog, List.map_map]
    exact (sortStrings_sorted_lt hd).map _ (fun a b h => List.Lex.append_left _ h _)
  · intro t' hp
    have hd' : t'.errors.keys.Nodup := (hp.map Prod.fst).nodup_iff.mpr hd
    have hk : sortStrings t'.errors.keys = sortStrings t.errors.keys :=
      sortStrings_perm_eq (hp.map Prod.fst)
    rw [hlog, statsLog_eq t' hd', errorCallbacks_specCallbacks, hk]
    exact List.map_congr_left (fun k _ => by rw [ErrMap.get_perm hp hd' k])
  · rw [statsLog_eq afterZetaAlphaBeta (by decide), errorCallbacks_specCallbacks, List.map_map]
    have hk : sortStrings afterZetaAlphaBeta.errors.keys =
        [lit "alpha", lit "beta", lit "zeta"] := by decide
    rw [hk]
    rfl

/-- C7 at a concrete state: the monitor after `zeta`, `alpha`, `beta`. -/
theorem error_callbacks_ascending_witness :
    afterZetaAlphaBeta.Valid ∧
      errorCallbacks (statsLog afterZetaAlphaBeta sampleTiming) =
        [(lit "error_alpha", .ofUint64 1), (lit "error_beta", .ofUint64 1),
          (lit "error_zeta", .ofUint64 1)] :=
  ⟨by decide, (error_callbacks_ascending afterZetaAlphaBeta (by decide) sampleTiming).1⟩

/-- C8. For every monitor state and every sequence of pairs emitted by the timing
accumulator, the callbacks of `Stats` are exactly: `current`; `error_k` with the count
of `k` for the keys `k` in ascending order; `highwater`; `success`; `time_n` for each
timing pair `n` other than `count`, in the accumulator's order and with its value;
`total_completed`; `total_started`.  Every callback function receives exactly this
sequence, and no `time_count` is ever passed on. -/
theorem stats_callbacks_in_order {F : Type} (t : TaskMonitor) (hv : t.Valid)
    (timingStats : List (GoString × F)) :
    statsLog t timingStats =
        [(lit "current", .ofUint64 t.current)] ++
          (sortStrings t.errors.keys).map
            (fun k => (lit "error_" ++ k, .ofUint64 (t.errors.get k))) ++
          [(lit "highwater", .ofUint64 t.highwater), (lit "success", .ofUint64 t.success)] ++
          (timingStats.filter (fun p => p.1 ≠ lit "count")).map
            (fun p => (lit "time_" ++ p.1, .ofFloat p.2)) ++
          [(lit "total_completed", .ofUint64 t.total_completed),
            (lit "total_started", .ofUint64 t.total_started)] ∧
      (sortStrings t.errors.keys).Sorted (· < ·) ∧
      (sortStrings t.errors.keys).Perm t.errors.keys ∧
      (∀ (σ : Type) (cb : GoString → Metric F → σ → σ) (acc : σ),
        (t.Stats timingStats cb acc).2 =
          (statsLog t timingStats).foldl (fun a p => cb p.1 p.2 a) acc) ∧
      ∀ p ∈ statsLog t timingStats, p.1 ≠ lit "time_count" := by
  have hd : t.errors.keys.Nodup := hv.2.2.2.2.2.1
  have hlog := statsLog_eq t hd timingStats
  refine ⟨hlog, sortStrings_sorted_lt hd, List.perm_insertionSort _ _, ?_, ?_⟩
  · intro σ cb acc
    rw [hlog, Stats_eq t hd]
  · intro p hp
    rw [hlog] at hp
    simp only [specCallbacks, List.mem_append, List.mem_map, List.mem_filter, List.mem_cons,
      List.mem_singleton, List.not_mem_nil, or_false] at hp
    have c1 : lit "current" ≠ lit "time_count" := by decide
    have c2 : lit "highwater" ≠ lit "time_count" := by decide
    have c3 : lit "success" ≠ lit "time_count" := by decide
    have c4 : lit "total_completed" ≠ lit "time_count" := by decide
    have c5 : lit "total_started" ≠ lit "time_count" := by decide
    rcases hp with (((rfl | ⟨k, -, rfl⟩) | rfl | rfl) | ⟨q, ⟨-, hq⟩, rfl⟩) | rfl | rfl
    · exact c1
    · exact error_ne_count k
    · exact c2
    · exact c3
    · exact time_ne_count (by simpa using hq)
    · exact c4
    · exact c5

/-- C8 at a concrete state and a timing snapshot that contains `count`. -/
theorem stats_callbacks_in_order_witness :
    afterZetaAlphaBeta.Valid ∧
      statsLog afterZetaAlphaBeta sampleTiming =
        [(lit "current", .ofUint64 0),
          (lit "error_alpha", .ofUint64 1), (lit "error_beta", .ofUint64 1),
          (lit "error_zeta", .ofUint64 1),
          (lit "highwater", .ofUint64 3), (lit "success", .ofUint64 0),
          (lit "time_avg", .ofFloat 5), (lit "time_max", .ofFloat 7),
          (lit "total_completed", .ofUint64 3), (lit "total_started", .ofUint64 3)] :=
  ⟨by decide, (stats_callbacks_in_order afterZetaAlphaBeta (by decide) sampleTiming).1⟩

/-- C9. For every monitor state and every callback, the monitor after `Stats` is the
monitor before it: `current`, `highwater`, `total_started`, `total_completed`,
`success` and `errors` are unchanged. -/
theorem stats_leaves_monitor {F σ : Type} (t : TaskMonitor) (timingStats : List (GoString × F))
    (cb : GoString → Metric F → σ → σ) (acc : σ) :
    (t.Stats timingStats cb acc).1 = t ∧
      (t.Stats timingStats cb acc).1.current = t.current ∧
      (t.Stats timingStats cb acc).1.highwater = t.highwater ∧
      (t.Stats timingStats cb acc).1.total_started = t.total_started ∧
      (t.Stats timingStats cb acc).1.total_completed = t.total_completed ∧
      (t.Stats timingStats cb acc).1.success = t.success ∧
      (t.Stats timingStats cb acc).1.errors = t.errors :=
  ⟨rfl, rfl, rfl, rfl, rfl, rfl, rfl⟩

/-! ## One call of `Finish` (C5, C6) -/

theorem decr64_of_pos {n : Nat} (h : 1 ≤ n) : decr64 n = n - 1 := by
  simp only [decr64]
  split <;> omega

theorem statsLog_no_errors {F : Type} (t : TaskMonitor) (he : t.errors = [])
    (timingStats : List (GoString × F)) :
    statsLog t timingStats =
      [(lit "current", .ofUint64 t.current), (lit "highwater", .ofUint64 t.highwater),
          (lit "success", .ofUint64 t.success)] ++
        (timingStats.filter (fun p => p.1 ≠ lit "count")).map
          (fun p => (lit "time_" ++ p.1, .ofFloat p.2)) ++
        [(lit "total_completed", .ofUint64 t.total_completed),
          (lit "total_started", .ofUint64 t.total_started)] := by
  rw [statsLog_eq t (by simp [he, ErrMap.keys])]
  simp [specCallbacks, he, ErrMap.keys, sortStrings]

/-- C5. In a state with `current ≥ 1`, `Finish(nil)` returns normally, takes one off
`current`, adds one to `total_completed` and to `success` (as `uint64` increments) and
leaves `errors`, `highwater` and `total_started` as they were.  On a fresh monitor,
`Start()` then `Finish(nil)` then `Stats` reports `current = 0`, `success = 1`,
`total_started = 1`, `total_completed = 1` and no `error_` metric. -/
theorem finish_nil_effect {F : Type} (env : Env) (t : TaskMonitor) (hc : 1 ≤ t.current)
    (duration : Int) (timingStats : List (GoString × F)) :
    (∃ t', Finish env t none duration = .ok t' ∧
        t'.current + 1 = t.current ∧
        t'.total_completed = (t.total_completed + 1) % U64 ∧
        t'.success = (t.success + 1) % U64 ∧
        t'.errors = t.errors ∧ t'.highwater = t.highwater ∧
        t'.total_started = t.total_started) ∧
      (∃ s, run env NewTaskMonitor [.start, .finish 0 none duration] = .ok s ∧
        statsLog s timingStats =
          [(lit "current", .ofUint64 0), (lit "highwater", .ofUint64 1),
              (lit "success", .ofUint64 1)] ++
            (timingStats.filter (fun p => p.1 ≠ lit "count")).map
              (fun p => (lit "time_" ++ p.1, .ofFloat p.2)) ++
            [(lit "total_completed", .ofUint64 1), (lit "total_started", .ofUint64 1)] ∧
        errorCallbacks (statsLog s timingStats) = []) := by
  refine ⟨⟨finishUpdate t none duration, rfl, ?_, rfl, rfl, rfl, rfl, rfl⟩, ?_⟩
  · show decr64 t.current + 1 = t.current
    rw [decr64_of_pos hc]
    omega
  · refine ⟨TaskMonitor.mk 0 1 1 1 1 [duration] [], rfl, ?_, ?_⟩
    · rw [statsLog_no_errors _ rfl]
    · rw [statsLog_eq _ (by simp [ErrMap.keys]), errorCallbacks_specCallbacks]
      simp [ErrMap.keys, sortStrings]

/-- C5 at a concrete state: a fresh monitor after one `Start`. -/
theorem finish_nil_effect_witness :
    1 ≤ NewTaskMonitor.Start.current ∧
      ∃ t', Finish defaultEnv NewTaskMonitor.Start none 8 = .ok t' ∧
        t'.current + 1 = NewTaskMonitor.Start.current ∧
        t'.total_completed = (NewTaskMonitor.Start.total_completed + 1) % U64 ∧
        t'.success = (NewTaskMonitor.Start.success + 1) % U64 ∧
        t'.errors = NewTaskMonitor.Start.errors ∧
        t'.highwater = NewTaskMonitor.Start.highwater ∧
        t'.total_started = NewTaskMonitor.Start.total_started :=
  ⟨by decide, (finish_nil_effect defaultEnv NewTaskMonitor.Start (by decide) 8 sampleTiming).1⟩

theorem errorName_timeout (env : Env) (hM : 7 ≤ env.maxErrorLength)
    (hs : env.SanitizeName (lit "Timeout") = lit "Timeout") (e : GoError)
    (h1 : e.hierarchical = true) (h2 : e.className = lit "Timeout") :
    errorName env e = .ok (lit "Timeout") := by
  have hlen : ((lit "Timeout").length : Int) = 7 := by decide
  have hnot : ¬ ((lit "Timeout").length : Int) > env.maxErrorLength := by omega
  simp only [errorName, rawName, h1, h2, if_true, truncateName, hnot, if_false, hs]

/-- C6, amended. In a state with `current ≥ 1`, `Finish(err)` with a non-nil `err` whose
key is `k` returns normally, adds one to the count of `k` (an absent key gets `1`), takes
one off `current`, adds one to `total_completed`, and leaves `success`, `highwater`,
`total_started` and the count of every other key as they were.  When `SanitizeName`
maps `Timeout` to itself and the length limit is at least 7 (as the default 40 is), on a
fresh monitor `Start()` then `Finish` of an error of class `Timeout` then `Stats` reports
`error_Timeout = 1` and `success = 0`. -/
theorem finish_error_effect {F : Type} (env : Env) (t : TaskMonitor) (hc : 1 ≤ t.current)
    (err : GoError) (k : GoString) (hk : errorName env err = .ok k) (duration : Int)
    (timingStats : List (GoString × F)) :
    (∃ t', Finish env t (some err) duration = .ok t' ∧
        t'.errors.get k = (t.errors.get k + 1) % U64 ∧
        (k ∉ t.errors.keys → t'.errors.get k = 1) ∧
        (∀ k₀, k₀ ≠ k → t'.errors.get k₀ = t.errors.get k₀) ∧
        t'.errors.keys = (if k ∈ t.errors.keys then t.errors.keys else t.errors.keys ++ [k]) ∧
        t'.current + 1 = t.current ∧
        t'.total_completed = (t.total_completed + 1) % U64 ∧
        t'.success = t.success ∧ t'.highwater = t.highwater ∧
        t'.total_started = t.total_started) ∧
      (7 ≤ env.maxErrorLength → env.SanitizeName (lit "Timeout") = lit "Timeout" →
        ∀ e : GoError, e.hierarchical = true → e.className = lit "Timeout" →
        ∃ s, run env NewTaskMonitor [.start, .finish 0 (some e) duration] = .ok s ∧
          (lit "error_Timeout", Metric.ofUint64 1) ∈ statsLog s timingStats ∧
          (lit "success", Metric.ofUint64 0) ∈ statsLog s timingStats ∧
          errorCallbacks (statsLog s timingStats) = [(lit "error_Timeout", .ofUint64 1)]) := by
  refine ⟨⟨finishUpdate t (some k) duration, by simp [Finish, hk], ?_, ?_, ?_, ?_, ?_,
    rfl, rfl, rfl, rfl⟩, ?_⟩
  · exact ErrMap.get_set_self _ _ _
  · intro hnot
    show (t.errors.set k ((t.errors.get k + 1) % U64)).get k = 1
    rw [ErrMap.get_set_self, ErrMap.get_eq_zero_of_not_mem _ hnot]
    decide
  · intro k₀ hne
    exact ErrMap.get_set_ne _ _ hne
  · exact ErrMap.keys_set _ _ _
  · show decr64 t.current + 1 = t.current
    rw [decr64_of_pos hc]
    omega
  · intro hM hs e h1 h2
    have he := errorName_timeout env hM hs e h1 h2
    refine ⟨TaskMonitor.mk 0 1 1 1 0 [duration] [(lit "Timeout", 1)], ?_, ?_⟩
    · simp only [run, step, Finish, he]
      rfl
    · have hlog := statsLog_eq (F := F)
        (TaskMonitor.mk 0 1 1 1 0 [duration] [(lit "Timeout", 1)]) (by simp [ErrMap.keys])
        timingStats
      have hsort : sortStrings (ErrMap.keys [(lit "Timeout", 1)]) = [lit "Timeout"] := rfl
      have hname : lit "error_" ++ lit "Timeout" = lit "error_Timeout" := by decide
      have hget : ErrMap.get [(lit "Timeout", 1)] (lit "Timeout") = 1 := by decide
      refine ⟨?_, ?_, ?_⟩
      · rw [hlog]
        simp [specCallbacks, hsort, hname, hget]
      · rw [hlog]
        simp [specCallbacks]
      · rw [hlog, errorCallbacks_specCallbacks]
        simp [hsort, hname, hget]

/-- C6 (amended) at a concrete state: a second `Timeout` on a monitor with one task in
flight. -/
theorem finish_error_effect_witness :
    (1 : Nat) ≤ 1 ∧ errorName defaultEnv (errWithClass (lit "Timeout")) = .ok (lit "Timeout") ∧
      ∃ t', Finish defaultEnv (TaskMonitor.mk 1 2 2 1 0 [4] [(lit "Timeout", 1)])
          (some (errWithClass (lit "Timeout"))) 6 = .ok t' ∧
        t'.errors.get (lit "Timeout") = 2 ∧ t'.current = 0 ∧ t'.total_completed = 2 ∧
        t'.success = 0 :=
  ⟨by decide, rfl, by
    obtain ⟨t', h, h1, -, -, -, h2, h3, h4, -, -⟩ :=
      (finish_error_effect defaultEnv (TaskMonitor.mk 1 2 2 1 0 [4] [(lit "Timeout", 1)])
        (by decide) (errWithClass (lit "Timeout")) (lit "Timeout") rfl 6 sampleTiming).1
    refine ⟨t', h, ?_, ?_, ?_, h4⟩
    · rw [h1]; decide
    · simpa using h2
    · rw [h3]; decide⟩

/-! ## Truncation of the error name (C10) -/

/-- C10, as stated, fails in two ways.  A name of 21 characters (42 bytes) is within the
default limit of 40 characters and is cut all the same, to its first 40 bytes, which are
20 characters; and with the limit `-1` a name is longer than the limit but nothing is
handed to `SanitizeName`: the slice expression panics. -/
theorem truncation_counts_bytes :
    runeCount accentedName = 21 ∧ accentedName.length = 42 ∧
      truncateName defaultEnv.maxErrorLength accentedName = .ok (accentedName.take 40) ∧
      accentedName.take 40 ≠ accentedName ∧
      runeCount (accentedName.take 40) = 20 ∧
      errorName defaultEnv (errWithMessage accentedName) = .ok (accentedName.take 40) ∧
      ((lit "abc").length : Int) > -1 ∧
      truncateName (-1) (lit "abc") = .error .sliceBounds ∧
      errorName { maxErrorLength := -1, SanitizeName := id } (errWithMessage (lit "abc")) =
        .error .sliceBounds := by
  refine ⟨by decide, by decide, rfl, by decide, by decide, rfl, by decide, rfl, rfl⟩

/-- C10, amended. With a length limit `M ≥ 0` (the default is 40): a name (class name of a
hierarchical error, message of any other) of more than `M` bytes reaches `SanitizeName`
cut to its first `M` bytes, exactly `M` bytes long; a name of at most `M` bytes reaches it
unchanged.  The key that `Finish` counts is `SanitizeName` of that string, so truncation
comes before sanitization and before counting. -/
theorem truncation_before_sanitization (env : Env) (hM : 0 ≤ env.maxErrorLength)
    (err : GoError) :
    (((rawName err).length : Int) > env.maxErrorLength →
        truncateName env.maxErrorLength (rawName err) =
          .ok ((rawName err).take env.maxErrorLength.toNat) ∧
        (((rawName err).take env.maxErrorLength.toNat).length : Int) = env.maxErrorLength ∧
        errorName env err =
          .ok (env.SanitizeName ((rawName err).take env.maxErrorLength.toNat))) ∧
      (((rawName err).length : Int) ≤ env.maxErrorLength →
        truncateName env.maxErrorLength (rawName err) = .ok (rawName err) ∧
        errorName env err = .ok (env.SanitizeName (rawName err))) ∧
      (∃ name, truncateName env.maxErrorLength (rawName err) = .ok name ∧
        ∀ (t : TaskMonitor) (duration : Int),
          Finish env t (some err) duration =
            .ok (finishUpdate t (some (env.SanitizeName name)) duration)) ∧
      rawName err = (if err.hierarchical then err.className else err.message) ∧
      defaultEnv.maxErrorLength = 40 := by
  have ht := truncateName_of_nonneg hM (rawName err)
  refine ⟨fun hgt => ?_, fun hle => ?_, ⟨_, ht, fun t d => ?_⟩, rfl, rfl⟩
  · rw [if_pos hgt] at ht
    refine ⟨ht, ?_, by simp only [errorName, ht]⟩
    rw [List.length_take]
    omega
  · rw [if_neg (by omega)] at ht
    exact ⟨ht, by simp only [errorName, ht]⟩
  · simp only [Finish, errorName, ht]

/-- C10 (amended) at the default limit, on a message of 44 bytes. -/
theorem truncation_before_sanitization_witness :
    (0 : Int) ≤ defaultEnv.maxErrorLength ∧
      errorName defaultEnv
          (errWithMessage (lit "connection refused by the upstream server 17")) =
        .ok (lit "connection refused by the upstream serve") :=
  ⟨by decide,
    ((truncation_before_sanitization defaultEnv (by decide)
      (errWithMessage (lit "connection refused by the upstream server 17"))).1
        (by decide)).2.2⟩

/-! ## Monotonicity of `highwater` (C15) -/

/-- C15. From every monitor state, reachable or not, `highwater` after `Start`, after
`Finish` with any error, and after `Stats` is at least its value before; `Finish` and
`Stats` leave it as it is. -/
theorem highwater_never_decreases {F σ : Type} (env : Env) (t : TaskMonitor)
    (err : Option GoError) (duration : Int) (timingStats : List (GoString × F))
    (cb : GoString → Metric F → σ → σ) (acc : σ) :
    t.highwater ≤ t.Start.highwater ∧
      (∀ t', Finish env t err duration = .ok t' →
        t'.highwater = t.highwater ∧ t.highwater ≤ t'.highwater) ∧
      (∀ key, (finishUpdate t key duration).highwater = t.highwater) ∧
      (t.Stats timingStats cb acc).1.highwater = t.highwater ∧
      t.highwater ≤ (t.Stats timingStats cb acc).1.highwater := by
  have hkey : ∀ key, (finishUpdate t key duration).highwater = t.highwater := by
    intro key
    cases key <;> rfl
  refine ⟨?_, ?_, hkey, rfl, le_refl _⟩
  · simp only [TaskMonitor.Start]
    split
    · omega
    · exact le_refl _
  · intro t' h
    have hfin : ∃ key, t' = finishUpdate t key duration := by
      cases err with
      | none =>
        simp only [Finish, Except.ok.injEq] at h
        exact ⟨none, h.symm⟩
      | some e =>
        simp only [Finish] at h
        cases hk : errorName env e with
        | error p => rw [hk] at h; cases h
        | ok key =>
          rw [hk] at h
          simp only [Except.ok.injEq] at h
          exact ⟨some key, h.symm⟩
    obtain ⟨key, rfl⟩ := hfin
    exact ⟨hkey key, le_of_eq (hkey key).symm⟩

/-- C15 at a concrete state that no run reaches (`highwater` below `current`). -/
theorem highwater_never_decreases_witness :
    Finish defaultEnv (TaskMonitor.mk 5 2 9 1 1 [] []) (some (errWithClass (lit "Timeout"))) 3 =
        .ok (TaskMonitor.mk 4 2 9 2 1 [3] [(lit "Timeout", 1)]) ∧
      (2 : Nat) = 2 ∧ (2 : Nat) ≤ 2 :=
  ⟨rfl,
    (highwater_never_decreases defaultEnv (TaskMonitor.mk 5 2 9 1 1 [] [])
      (some (errWithClass (lit "Timeout"))) 3 sampleTiming record []).2.1
      (TaskMonitor.mk 4 2 9 2 1 [3] [(lit "Timeout", 1)]) rfl⟩

/-! ## A second `Finish` on the same context (C20) -/

/-- C20. `Finish` has no guard against a second call on the same context.  On a fresh
monitor `Start()` and then `Finish(nil)` twice on the returned context ends with
`current = 2 ^ 64 - 1`, `total_completed = 2`, `success = 2`, `total_started = 1` and
`highwater = 1`; in that state neither `highwater ≥ current` nor
`total_completed ≤ total_started` holds.  The sequence is not well-formed. -/
theorem double_finish_wraps (env : Env) (d₁ d₂ : Int) :
    ∃ t, run env NewTaskMonitor [.start, .finish 0 none d₁, .finish 0 none d₂] = .ok t ∧
      t.current = 2 ^ 64 - 1 ∧ t.current = 18446744073709551615 ∧
      t.total_completed = 2 ∧ t.success = 2 ∧ t.total_started = 1 ∧ t.highwater = 1 ∧
      t.errors = [] ∧ t.timing = [d₁, d₂] ∧
      ¬ t.highwater ≥ t.current ∧ ¬ t.total_completed ≤ t.total_started ∧
      ¬ WellFormed [.start, .finish 0 none d₁, .finish 0 none d₂] ∧
      (run env NewTaskMonitor [.start, .finish 0 none d₁] =
        .ok (TaskMonitor.mk 0 1 1 1 1 [d₁] [])) :=
  ⟨TaskMonitor.mk 18446744073709551615 1 1 2 2 [d₁, d₂] [], rfl, rfl, rfl, rfl, rfl, rfl, rfl,
    rfl, rfl, (by show ¬ (1 : Nat) ≥ 18446744073709551615; decide),
    (by show ¬ (2 : Nat) ≤ 1; decide), fun h => Bool.false_ne_true h, rfl⟩

/-! ## The key of an error (C11, C12) -/

/-- C12. For every non-nil error the key under which `Finish` counts it is `SanitizeName`
of the truncated name, the name being the class name when the error is hierarchical and
the message otherwise; two hierarchical errors of the same class get the same key
whatever their messages. -/
theorem error_key_of_class_or_message (env : Env) (err : GoError) :
    (∀ t duration t', Finish env t (some err) duration = .ok t' →
        ∃ name,
          truncateName env.maxErrorLength
              (if err.hierarchical then err.className else err.message) = .ok name ∧
            t' = finishUpdate t (some (env.SanitizeName name)) duration) ∧
      (0 ≤ env.maxErrorLength →
        ∃ name,
          truncateName env.maxErrorLength
              (if err.hierarchical then err.className else err.message) = .ok name ∧
            ∀ t duration, Finish env t (some err) duration =
              .ok (finishUpdate t (some (env.SanitizeName name)) duration)) ∧
      (err.hierarchical = true →
        errorName env err = errorName env (errWithClass err.className) ∧
        ∀ err' : GoError, err'.hierarchical = true → err'.className = err.className →
          errorName env err' = errorName env err) ∧
      (err.hierarchical = false →
        errorName env err = errorName env (errWithMessage err.message)) := by
  refine ⟨fun t d t' h => ?_, fun hM => ?_, fun hh => ⟨?_, fun err' hh' hc => ?_⟩, fun hh => ?_⟩
  · simp only [Finish, errorName, rawName] at h
    cases ht : truncateName env.maxErrorLength
        (if err.hierarchical then err.className else err.message) with
    | error p => rw [ht] at h; cases h
    | ok name =>
      rw [ht] at h
      simp only [Except.ok.injEq] at h
      exact ⟨name, rfl, h.symm⟩
  · have ht := truncateName_of_nonneg hM (rawName err)
    exact ⟨_, ht, fun t d => by simp only [Finish, errorName, ht]⟩
  · simp only [errorName, rawName, errWithClass, hh, if_true]
  · simp only [errorName, rawName, hh, hh', hc, if_true]
  · simp only [errorName, rawName, errWithMessage, hh]
    rfl

/-- C12 at a concrete error: a hierarchical error of class `Timeout` with a message. -/
theorem error_key_of_class_or_message_witness :
    (0 : Int) ≤ defaultEnv.maxErrorLength ∧
      errorName defaultEnv
          { hierarchical := true, className := lit "Timeout", message := lit "dial tcp" } =
        errorName defaultEnv (errWithClass (lit "Timeout")) :=
  ⟨by decide,
    ((error_key_of_class_or_message defaultEnv
      { hierarchical := true, className := lit "Timeout", message := lit "dial tcp" }).2.2.1
        rfl).1⟩

theorem takeRunes_append (n : Nat) (s : GoString) : ∃ rest, s = takeRunes n s ++ rest := by
  induction s generalizing n with
  | nil => exact ⟨[], rfl⟩
  | cons b rest ih =>
    simp only [takeRunes]
    split
    · obtain ⟨r, hr⟩ := ih n
      exact ⟨r, by rw [List.cons_append, ← hr]⟩
    · cases n with
      | zero => exact ⟨b :: rest, rfl⟩
      | succ n =>
        obtain ⟨r, hr⟩ := ih n
        exact ⟨r, by rw [List.cons_append, ← hr]⟩

theorem takeRunes_eq_or_le (n : Nat) (s : GoString) :
    takeRunes n s = s ∨ n ≤ (takeRunes n s).length := by
  induction s generalizing n with
  | nil => exact Or.inl rfl
  | cons b rest ih =>
    simp only [takeRunes]
    split
    · rcases ih n with h | h
      · exact Or.inl (by rw [h])
      · exact Or.inr (by simp only [List.length_cons]; omega)
    · cases n with
      | zero => exact Or.inr (Nat.zero_le _)
      | succ n =>
        rcases ih n with h | h
        · exact Or.inl (by show b :: takeRunes n rest = b :: rest; rw [h])
        · exact Or.inr (by
            show n + 1 ≤ (b :: takeRunes n rest).length
            simp only [List.length_cons]; omega)

/-- Strings with the same first `n` characters have the same first `n` bytes. -/
theorem take_eq_of_takeRunes_eq {n : Nat} {a b : GoString}
    (h : takeRunes n a = takeRunes n b) : a.take n = b.take n := by
  obtain ⟨ra, ha⟩ := takeRunes_append n a
  obtain ⟨rb, hb⟩ := takeRunes_append n b
  rcases takeRunes_eq_or_le n a with ea | la
  · rcases takeRunes_eq_or_le n b with eb | lb
    · rw [← ea, h, eb]
    · rw [ha, hb, List.take_append_of_le_length (h ▸ lb), List.take_append_of_le_length lb, h]
  · have lb : n ≤ (takeRunes n b).length := h ▸ la
    rw [ha, hb, List.take_append_of_le_length la, List.take_append_of_le_length lb, h]

theorem truncateName_eq_take (M : Nat) (name : GoString) :
    truncateName (M : Int) name = .ok (name.take M) := by
  rw [truncateName_of_nonneg (Int.natCast_nonneg M)]
  split
  · rfl
  · rename_i h
    rw [List.take_of_length_le (by omega)]

/-- C11. With the length limit 40, two non-classified errors whose messages have the same
first 40 bytes (as they have when they share their first 40 characters) are counted
under the same key: after two `Start` calls and one `Finish` with each error a fresh
monitor has exactly one key in `errors`, with count 2. -/
theorem same_first_forty_same_bucket (env : Env) (hM : env.maxErrorLength = 40)
    (e₁ e₂ : GoError) (h₁ : e₁.hierarchical = false) (h₂ : e₂.hierarchical = false)
    (hsame : e₁.message.take 40 = e₂.message.take 40 ∨
      takeRunes 40 e₁.message = takeRunes 40 e₂.message)
    (d₁ d₂ : Int) :
    errorName env e₁ = .ok (env.SanitizeName (e₁.message.take 40)) ∧
      errorName env e₂ = errorName env e₁ ∧
      ∃ t, run env NewTaskMonitor (twoFailures e₁ e₂ d₁ d₂) = .ok t ∧
        t.errors = [(env.SanitizeName (e₁.message.take 40), 2)] ∧
        t.errors.keys.length = 1 ∧
        t.errors.get (env.SanitizeName (e₁.message.take 40)) = 2 ∧
        t.total_completed = 2 ∧ t.success = 0 := by
  have hbytes : e₁.message.take 40 = e₂.message.take 40 := by
    rcases hsame with h | h
    · exact h
    · exact take_eq_of_takeRunes_eq h
  have hk₁ : errorName env e₁ = .ok (env.SanitizeName (e₁.message.take 40)) := by
    have := truncateName_eq_take 40 e₁.message
    simp only [errorName, rawName, h₁, hM]
    simp only [Nat.cast_ofNat] at this
    simp [this]
  have hk₂ : errorName env e₂ = .ok (env.SanitizeName (e₁.message.take 40)) := by
    have := truncateName_eq_take 40 e₂.message
    simp only [errorName, rawName, h₂, hM]
    simp only [Nat.cast_ofNat] at this
    simp [this, hbytes]
  refine ⟨hk₁, hk₂.trans hk₁.symm,
    finishUpdate (finishUpdate NewTaskMonitor.Start.Start
      (some (env.SanitizeName (e₁.message.take 40))) d₁)
      (some (env.SanitizeName (e₁.message.take 40))) d₂, ?_, ?_⟩
  · simp only [twoFailures, run, step, Finish, hk₁, hk₂]
  · have he : (finishUpdate (finishUpdate NewTaskMonitor.Start.Start
        (some (env.SanitizeName (e₁.message.take 40))) d₁)
        (some (env.SanitizeName (e₁.message.take 40))) d₂).errors =
        [(env.SanitizeName (e₁.message.take 40), 2)] := by
      have h2 : (2 : Nat) % U64 = 2 := by decide
      simp [finishUpdate, TaskMonitor.Start, NewTaskMonitor, ErrMap.set, ErrMap.get, h2]
    refine ⟨he, by rw [he]; rfl, by rw [he]; simp [ErrMap.get], rfl, rfl⟩

/-- C11 at two messages of 45 and 50 bytes that differ only after byte 41. -/
theorem same_first_forty_same_bucket_witness :
    errorName defaultEnv
        (errWithMessage (lit "connection refused by the upstream server #17")) =
      errorName defaultEnv
        (errWithMessage (lit "connection refused by the upstream server-pool A/3")) :=
  (same_first_forty_same_bucket defaultEnv rfl
    (errWithMessage (lit "connection refused by the upstream server-pool A/3"))
    (errWithMessage (lit "connection refused by the upstream server #17"))
    rfl rfl (Or.inl (by decide)) 1 2).2.1

/-! ## Runs of `Start` alone (C13) -/

theorem run_append_ok {env : Env} {t t₁ : TaskMonitor} {a : List Call} (b : List Call)
    (h : run env t a = .ok t₁) : run env t (a ++ b) = run env t₁ b := by
  induction a generalizing t with
  | nil =>
    simp only [run, Except.ok.injEq] at h
    subst h; rfl
  | cons c cs ih =>
    obtain ⟨t₂, h1, h2⟩ := run_cons_ok h
    simp only [List.cons_append, run, h1]
    exact ih h2

theorem afterStarts_succ (n : Nat) : (afterStarts n).Start = afterStarts (n + 1) := by
  simp only [afterStarts, TaskMonitor.Start, TaskMonitor.mk.injEq, and_true, true_and]
  refine ⟨by simp only [U64]; omega, ?_, by simp only [U64]; omega⟩
  simp only [U64]
  split <;> split <;> split <;> omega

theorem run_replicate_start (env : Env) (n : Nat) :
    run env NewTaskMonitor (List.replicate n .start) = .ok (afterStarts n) := by
  induction n with
  | zero => rfl
  | succ n ih =>
    rw [List.replicate_succ', run_append_ok _ ih]
    simp only [run, step, afterStarts_succ]

/-- C13, as stated, fails for `n = 2 ^ 64`: after that many calls of `Start` the counters
`current` and `total_started` are back at `0` and `highwater` is `2 ^ 64 - 1`; none of the
three equals `n`. -/
theorem starts_wrap_around :
    ∃ t, run defaultEnv NewTaskMonitor (List.replicate U64 .start) = .ok t ∧
      t.current = 0 ∧ t.total_started = 0 ∧ t.highwater = U64 - 1 ∧
      t.current ≠ U64 ∧ t.total_started ≠ U64 ∧ t.highwater ≠ U64 := by
  refine ⟨afterStarts U64, run_replicate_start defaultEnv U64, ?_, ?_, ?_, ?_, ?_, ?_⟩
  · exact Nat.mod_self U64
  · exact Nat.mod_self U64
  · show (if U64 < U64 then U64 else U64 - 1) = U64 - 1
    rw [if_neg (lt_irrefl U64)]
  · show U64 % U64 ≠ U64
    rw [Nat.mod_self]; decide
  · show U64 % U64 ≠ U64
    rw [Nat.mod_self]; decide
  · show (if U64 < U64 then U64 else U64 - 1) ≠ U64
    rw [if_neg (lt_irrefl U64)]; decide

/-- C13, amended. After `n` calls of `Start` on a fresh monitor, with no `Finish` in
between, `current` and `total_started` are `n` modulo `2 ^ 64`, `highwater` is the smaller
of `n` and `2 ^ 64 - 1`, and `total_completed`, `success` and `errors` are untouched; so
for every `n < 2 ^ 64` (e.g. `n = 100`) `current = n`, `total_started = n` and
`highwater = n`. -/
theorem starts_only (env : Env) (n : Nat) :
    ∃ t, run env NewTaskMonitor (List.replicate n .start) = .ok t ∧
      t.current = n % U64 ∧ t.total_started = n % U64 ∧
      t.highwater = (if n < U64 then n else U64 - 1) ∧
      t.total_completed = 0 ∧ t.success = 0 ∧ t.errors = [] ∧ t.timing = [] ∧
      (n < U64 → t.current = n ∧ t.total_started = n ∧ t.highwater = n) :=
  ⟨afterStarts n, run_replicate_start env n, rfl, rfl, rfl, rfl, rfl, rfl, rfl,
    fun h => ⟨Nat.mod_eq_of_lt h, Nat.mod_eq_of_lt h, if_pos h⟩⟩

/-- C13 (amended) for `n = 100`. -/
theorem starts_only_witness :
    100 < U64 ∧
      run defaultEnv NewTaskMonitor (List.replicate 100 .start) =
        .ok (TaskMonitor.mk 100 100 100 0 0 [] []) := by
  obtain ⟨t, ht, -, -, -, h4, h5, h6, h7, hn⟩ := starts_only defaultEnv 100
  obtain ⟨h1, h2, h3⟩ := hn (by decide)
  refine ⟨by decide, ?_⟩
  rw [ht]
  cases t
  simp only [TaskMonitor.mk.injEq, Except.ok.injEq] at *
  exact ⟨h1, h3, h2, h4, h5, h7, h6⟩

/-! ## The balance of the counters (C19) -/

theorem step_balance {env : Env} {t t' : TaskMonitor} {c : Call}
    (h : step env t c = .ok t')
    (inv : (t.current + t.total_completed) % U64 = t.total_started) :
    (t'.current + t'.total_completed) % U64 = t'.total_started := by
  rcases step_ok_cases h with ⟨-, rfl⟩ | ⟨_, d, -, rfl⟩ | ⟨_, _, d, key, -, -, rfl⟩
  · simp only [TaskMonitor.Start, U64] at inv ⊢
    omega
  · simp only [finishUpdate, decr64, U64] at inv ⊢
    split <;> omega
  · simp only [finishUpdate, decr64, U64] at inv ⊢
    split <;> omega

theorem run_balance {env : Env} {calls : List Call} {t t' : TaskMonitor}
    (h : run env t calls = .ok t')
    (inv : (t.current + t.total_completed) % U64 = t.total_started) :
    (t'.current + t'.total_completed) % U64 = t'.total_started := by
  induction calls generalizing t with
  | nil =>
    simp only [run, Except.ok.injEq] at h
    subst h; exact inv
  | cons c cs ih =>
    obtain ⟨t₁, h1, h2⟩ := run_cons_ok h
    exact ih h2 (step_balance h1 inv)

/-- In a well-formed sequence the contexts in flight number the `Start` calls less the
`Finish` calls. -/
theorem inFlight_length {calls : List Call} (hwf : WellFormed calls) :
    (inFlight calls).length = starts calls - finishes calls := by
  obtain ⟨hd, hb⟩ := wellFormedFrom_finished hwf List.nodup_nil (by simp)
  simp only [List.append_nil, Nat.zero_add] at hd hb
  have hsplit := List.length_eq_length_filter_add (l := List.range (starts calls))
    (fun ctx => decide (ctx ∈ finishedCtxs calls))
  have hperm : ((List.range (starts calls)).filter
      (fun ctx => decide (ctx ∈ finishedCtxs calls))).Perm (finishedCtxs calls) := by
    apply (List.perm_ext_iff_of_nodup ((List.nodup_range _).filter _) hd).mpr
    intro c
    simp only [List.mem_filter, List.mem_range, decide_eq_true_eq]
    exact ⟨fun h => h.2, fun h => ⟨hb c h, h⟩⟩
  have hlen := hperm.length_eq
  simp only [List.length_range] at hsplit
  have hin : (inFlight calls).length = ((List.range (starts calls)).filter
      (fun ctx => !decide (ctx ∈ finishedCtxs calls))).length := by
    simp only [inFlight, decide_not]
  rw [hin]
  simp only [finishes]
  omega

theorem wellFormed_take {calls : List Call} (h : WellFormed calls) (k : Nat) :
    WellFormed (calls.take k) := by
  have key : ∀ (cs : List Call) (issued : Nat) (finished : List Nat) (k : Nat),
      wellFormedFrom issued finished cs = true →
      wellFormedFrom issued finished (cs.take k) = true := by
    intro cs
    induction cs with
    | nil => intro _ _ _ h; simpa using h
    | cons c cs ih =>
      intro issued finished k h
      cases k with
      | zero => rfl
      | succ k =>
        cases c with
        | start => exact ih _ _ k h
        | finish ctx err d =>
          simp only [List.take_succ_cons, wellFormedFrom, Bool.and_eq_true] at h ⊢
          exact ⟨h.1, ih _ _ k h.2⟩
  exact key calls 0 [] k h

/-- C19, as stated, fails for `2 ^ 64` calls of `Start`: `total_started` is `0`, not
the number of `Start` calls, and `current` is `0` although `2 ^ 64` contexts were
started and none finished. -/
theorem counters_lose_count :
    WellFormed (List.replicate U64 .start) ∧
      starts (List.replicate U64 .start) = U64 ∧ finishes (List.replicate U64 .start) = 0 ∧
      ∃ t, run defaultEnv NewTaskMonitor (List.replicate U64 .start) = .ok t ∧
        t.total_started = 0 ∧ t.current = 0 ∧
        t.total_started ≠ starts (List.replicate U64 .start) ∧
        t.current ≠ starts (List.replicate U64 .start) - finishes (List.replicate U64 .start) := by
  have hs : starts (List.replicate U64 .start) = U64 := by
    have := starts_replicate U64 []
    rw [List.append_nil] at this
    rw [this]; rfl
  have hf : finishes (List.replicate U64 .start) = 0 := by
    have := finishes_replicate U64 []
    rw [List.append_nil] at this
    rw [this]; rfl
  have hwf : WellFormed (List.replicate U64 .start) := by
    have := wellFormedFrom_replicate U64 0 [] []
    rw [List.append_nil] at this
    unfold WellFormed
    rw [this]; rfl
  refine ⟨hwf, hs, hf, afterStarts U64, run_replicate_start defaultEnv U64,
    Nat.mod_self U64, Nat.mod_self U64, ?_, ?_⟩
  · rw [hs]
    show U64 % U64 ≠ U64
    rw [Nat.mod_self]; decide
  · rw [hs, hf]
    show U64 % U64 ≠ U64 - 0
    rw [Nat.mod_self]; decide

/-- C19, amended. In every state a fresh monitor reaches under any sequence of `Start`
and `Finish` calls, well-formed or not, `current + total_completed` equals
`total_started` modulo `2 ^ 64`, and `total_started` and `total_completed` are the numbers
of `Start` and of `Finish` calls modulo `2 ^ 64` (the numbers themselves while there are
fewer than `2 ^ 64` of them).  Under well-formed use `current` is the number of contexts
started and not yet finished modulo `2 ^ 64`, and that number itself when fewer than
`2 ^ 64` calls of `Start` were made: every unfinished context counts one in `current`
for good. -/
theorem counters_balance (env : Env) (calls : List Call) (k : Nat) (s : TaskMonitor)
    (h : run env NewTaskMonitor (calls.take k) = .ok s) :
    (s.current + s.total_completed) % U64 = s.total_started ∧
      s.total_started = starts (calls.take k) % U64 ∧
      s.total_completed = finishes (calls.take k) % U64 ∧
      (starts calls < U64 → s.total_started = starts (calls.take k)) ∧
      (finishes calls < U64 → s.total_completed = finishes (calls.take k)) ∧
      (WellFormed calls →
        s.current = (inFlight (calls.take k)).length % U64 ∧
        (inFlight (calls.take k)).length = starts (calls.take k) - finishes (calls.take k) ∧
        (starts calls < U64 →
          s.current = (inFlight (calls.take k)).length ∧
          s.total_completed = finishes (calls.take k) ∧
          s.current + s.total_completed = s.total_started)) := by
  have hs := run_total_started h (by decide)
  have hf := run_total_completed h (by decide)
  have h1 := starts_take_le calls k
  have h2 := finishes_take_le calls k
  simp only [NewTaskMonitor, Nat.zero_add] at hs hf
  refine ⟨run_balance h (by decide), hs, hf, fun hlt => ?_, fun hlt => ?_, fun hwf => ?_⟩
  · rw [hs]
    exact Nat.mod_eq_of_lt (by omega)
  · rw [hf]
    exact Nat.mod_eq_of_lt (by omega)
  · have hc := run_current h (hwf.balanced.take k) rfl
    have hin := inFlight_length (wellFormed_take hwf k)
    have hle := (hwf.balanced.take k).finishes_le
    simp only [Nat.zero_add] at hc hle
    refine ⟨by rw [hc, hin], hin, fun hlt => ?_⟩
    have e1 : s.current = (inFlight (calls.take k)).length := by
      rw [hc, hin]
      exact Nat.mod_eq_of_lt (by omega)
    have e2 : s.total_completed = finishes (calls.take k) := by
      rw [hf]
      exact Nat.mod_eq_of_lt (by omega)
    have e3 : s.total_started = starts (calls.take k) := by
      rw [hs]
      exact Nat.mod_eq_of_lt (by omega)
    exact ⟨e1, e2, by rw [e1, e2, e3, hin]; omega⟩

/-- C19 (amended) at a concrete run: three tasks started, the second one finished; two
contexts stay in flight. -/
theorem counters_balance_witness :
    run defaultEnv NewTaskMonitor
        (List.take 4 [.start, .start, .start, .finish 1 none 5]) =
        .ok (TaskMonitor.mk 2 3 3 1 1 [5] []) ∧
      inFlight (List.take 4 [.start, .start, .start, .finish 1 none 5]) = [0, 2] ∧
      (2 + 1) % U64 = 3 :=
  ⟨rfl, by decide,
    (counters_balance defaultEnv [.start, .start, .start, .finish 1 none 5] 4
      (TaskMonitor.mk 2 3 3 1 1 [5] []) rfl).1⟩

/-! ## Timing samples (C14) -/

theorem step_timing {env : Env} {t t' : TaskMonitor} {c : Call} (h : step env t c = .ok t') :
    t'.timing.length = t.timing.length + finishes [c] := by
  rcases step_ok_cases h with ⟨rfl, rfl⟩ | ⟨_, d, rfl, rfl⟩ | ⟨_, _, d, key, rfl, -, rfl⟩
  · rfl
  · simp [finishUpdate, finishes, finishedCtxs]
  · simp [finishUpdate, finishes, finishedCtxs]

theorem run_timing {env : Env} {calls : List Call} {t t' : TaskMonitor}
    (h : run env t calls = .ok t') :
    t'.timing.length = t.timing.length + finishes calls := by
  induction calls generalizing t with
  | nil =>
    simp only [run, Except.ok.injEq] at h
    subst h; rfl
  | cons c cs ih =>
    obtain ⟨t₁, h1, h2⟩ := run_cons_ok h
    have e1 := step_timing h1
    have e2 := ih h2
    have e3 : finishes (c :: cs) = finishes [c] + finishes cs := by
      cases c <;> simp [finishes, finishedCtxs]
      omega
    omega

/-- A sequence whose `Finish` calls all pass `nil` runs to its end under every
configuration. -/
theorem run_ok_of_nil (env : Env) (calls : List Call)
    (hall : ∀ c ∈ calls, c = .start ∨ ∃ ctx d, c = .finish ctx none d) (t : TaskMonitor) :
    ∃ t', run env t calls = .ok t' := by
  induction calls generalizing t with
  | nil => exact ⟨t, rfl⟩
  | cons c cs ih =>
    have hc := hall c (List.mem_cons_self _ _)
    have hrest := fun c' hc' => hall c' (List.mem_cons_of_mem _ hc')
    rcases hc with rfl | ⟨ctx, d, rfl⟩
    · obtain ⟨t', ht'⟩ := ih hrest t.Start
      exact ⟨t', by simpa [run, step] using ht'⟩
    · obtain ⟨t', ht'⟩ := ih hrest (finishUpdate t none d)
      exact ⟨t', by simpa [run, step, Finish] using ht'⟩

theorem wellFormedFrom_finishRange (m s issued : Nat) (finished : List Nat)
    (hle : s + m ≤ issued) (hb : ∀ c ∈ finished, c < s) :
    wellFormedFrom issued finished
      ((List.range' s m).map (fun ctx => Call.finish ctx none 0)) = true := by
  induction m generalizing s finished with
  | zero => rfl
  | succ m ih =>
    rw [List.range'_succ, List.map_cons, wellFormedFrom]
    have hnot : finished.contains s = false := by
      rw [List.contains_eq_any_beq, List.any_eq_false]
      intro c hc
      have := hb c hc
      simp only [beq_iff_eq]
      omega
    have hrec := ih (s + 1) (s :: finished) (by omega) (by
      intro c hc
      rcases List.mem_cons.mp hc with rfl | hc
      · omega
      · have := hb c hc
        omega)
    simp only [hnot, hrec, Bool.not_false, Bool.and_true, decide_eq_true_eq]
    omega

theorem startAllFinishAll_spec (env : Env) (n : Nat) :
    WellFormed (startAllFinishAll n) ∧ finishes (startAllFinishAll n) = n ∧
      ∃ t, run env NewTaskMonitor (startAllFinishAll n) = .ok t := by
  refine ⟨?_, ?_, ?_⟩
  · unfold WellFormed startAllFinishAll
    rw [wellFormedFrom_replicate]
    exact wellFormedFrom_finishRange n 0 (0 + n) [] (by omega) (by simp)
  · unfold startAllFinishAll
    rw [finishes_replicate]
    have : ∀ l : List Nat, finishes (l.map (fun ctx => Call.finish ctx none 0)) = l.length := by
      intro l
      induction l with
      | nil => rfl
      | cons a l ih =>
        simp only [finishes, finishedCtxs, List.map_cons, List.length_cons] at ih ⊢
        omega
    rw [this, List.length_range']
  · apply run_ok_of_nil
    intro c hc
    unfold startAllFinishAll at hc
    rcases List.mem_append.mp hc with h | h
    · exact Or.inl (List.eq_of_mem_replicate h)
    · obtain ⟨ctx, -, rfl⟩ := List.mem_map.mp h
      exact Or.inr ⟨ctx, 0, rfl⟩

/-- C14, as stated, fails once `total_completed` wraps around: after `2 ^ 64` tasks were
started and each finished once, `2 ^ 64` samples were fed to the timing accumulator and
`total_completed` is `0`. -/
theorem samples_outrun_total_completed :
    WellFormed (startAllFinishAll U64) ∧
      ∃ t, run defaultEnv NewTaskMonitor (startAllFinishAll U64) = .ok t ∧
        t.timing.length = U64 ∧ t.total_completed = 0 ∧
        t.timing.length ≠ t.total_completed := by
  obtain ⟨hwf, hf, t, ht⟩ := startAllFinishAll_spec defaultEnv U64
  have h1 := run_timing ht
  have h2 := run_total_completed ht (by decide)
  rw [hf] at h1 h2
  have e1 : t.timing.length = U64 := by simpa [NewTaskMonitor] using h1
  have e2 : t.total_completed = 0 := by
    rw [h2]
    show (0 + U64) % U64 = 0
    rw [Nat.zero_add, Nat.mod_self]
  exact ⟨hwf, t, ht, e1, e2, by rw [e1, e2]; decide⟩

theorem Finish_timing {env : Env} {t t' : TaskMonitor} {err : Option GoError} {d : Int}
    (h : Finish env t err d = .ok t') : t'.timing = t.timing ++ [d] := by
  have hs : step env t (.finish 0 err d) = .ok t' := h
  rcases step_ok_cases hs with ⟨hc, -⟩ | ⟨_, d', hc, rfl⟩ | ⟨_, _, d', key, hc, -, rfl⟩
  · cases hc
  · cases hc; rfl
  · cases hc; rfl

/-- C14, amended. Every call of `Finish` that returns, whether `err` is nil or not, adds
exactly one sample to the timing accumulator (and every call returns when `err` is nil
or the length limit is non-negative); `Start` and `Stats` add none.  So after every
sequence of completed calls on a fresh monitor the number of samples is the number of
`Finish` calls: it equals `total_completed` modulo `2 ^ 64`, and `total_completed` itself
while fewer than `2 ^ 64` `Finish` calls were made. -/
theorem one_sample_per_finish {F σ : Type} (env : Env) (t : TaskMonitor)
    (err : Option GoError) (duration : Int) (timingStats : List (GoString × F))
    (cb : GoString → Metric F → σ → σ) (acc : σ) (calls : List Call) :
    (∀ t', Finish env t err duration = .ok t' → t'.timing = t.timing ++ [duration]) ∧
      (err = none ∨ 0 ≤ env.maxErrorLength → ∃ t', Finish env t err duration = .ok t') ∧
      t.Start.timing = t.timing ∧
      (t.Stats timingStats cb acc).1.timing = t.timing ∧
      (∀ s, run env NewTaskMonitor calls = .ok s →
        s.timing.length = finishes calls ∧
        s.timing.length % U64 = s.total_completed ∧
        (finishes calls < U64 → s.timing.length = s.total_completed)) ∧
      (0 ≤ env.maxErrorLength → ∃ s, run env NewTaskMonitor calls = .ok s) := by
  refine ⟨fun t' h => Finish_timing h, fun h => ?_, rfl, rfl, fun s hs => ?_,
    fun hM => run_ok env hM _ _⟩
  · rcases h with rfl | hM
    · exact ⟨_, rfl⟩
    · exact step_ok env hM t (.finish 0 err duration)
  · have h1 := run_timing hs
    have h2 := run_total_completed hs (by decide)
    simp only [NewTaskMonitor, List.length_nil, Nat.zero_add] at h1 h2
    refine ⟨h1, by rw [h1, h2], fun hlt => ?_⟩
    rw [h1, h2]
    exact (Nat.mod_eq_of_lt hlt).symm

/-- C14 (amended) at a concrete call: a failing task adds its duration as one sample. -/
theorem one_sample_per_finish_witness :
    Finish defaultEnv (TaskMonitor.mk 1 1 1 0 0 [] []) (some (errWithClass (lit "Timeout"))) 9 =
        .ok (TaskMonitor.mk 0 1 1 1 0 [9] [(lit "Timeout", 1)]) ∧
      (TaskMonitor.mk 0 1 1 1 0 [9] [(lit "Timeout", 1)]).timing =
        (TaskMonitor.mk 1 1 1 0 0 [] []).timing ++ [9] :=
  ⟨rfl,
    (one_sample_per_finish defaultEnv (TaskMonitor.mk 1 1 1 0 0 [] [])
      (some (errWithClass (lit "Timeout"))) 9 sampleTiming record [] zetaAlphaBeta).1
      (TaskMonitor.mk 0 1 1 1 0 [9] [(lit "Timeout", 1)]) rfl⟩

/-! ## Panics (C16) -/

/-- C16. With the length limit `-1`, `Finish` of a non-nil error on a monitor made by
`NewTaskMonitor` does not complete: the slice expression `error_name[:-1]` panics, and
the monitor is left with the task counted as in flight. -/
theorem finish_panics_on_negative_limit :
    Finish { maxErrorLength := -1, SanitizeName := id } NewTaskMonitor.Start
        (some (errWithMessage (lit "boom"))) 0 = .error .sliceBounds ∧
      run { maxErrorLength := -1, SanitizeName := id } NewTaskMonitor
        [.start, .finish 0 (some (errWithMessage (lit "boom"))) 0] = .error .sliceBounds ∧
      history { maxErrorLength := -1, SanitizeName := id } NewTaskMonitor
        [.start, .finish 0 (some (errWithMessage (lit "boom"))) 0] =
        [NewTaskMonitor, TaskMonitor.mk 1 1 1 0 0 [] []] :=
  ⟨rfl, rfl, rfl⟩

/-! ## `WrapNamed` (C17) -/

theorem Registry.find_put_self (m : Registry) (name : GoString) (e : Entry) :
    (m.put name e).find name = some e := by
  induction m with
  | nil => simp [Registry.put, Registry.find]
  | cons p rest ih =>
    obtain ⟨k, e₀⟩ := p
    by_cases h : k = name
    · simp [Registry.put, Registry.find, h]
    · simp [Registry.put, Registry.find, h, ih]

theorem Registry.find_put_ne (m : Registry) {name k₀ : GoString} (e : Entry) (h : k₀ ≠ name) :
    (m.put name e).find k₀ = m.find k₀ := by
  induction m with
  | nil => simp [Registry.put, Registry.find, h.symm]
  | cons p rest ih =>
    obtain ⟨k, e₀⟩ := p
    by_cases h' : k = name
    · subst h'
      have : ¬ k = k₀ := fun e => h e.symm
      simp [Registry.put, Registry.find, this]
    · by_cases h'' : k = k₀
      · subst h''
        simp [Registry.put, Registry.find, h']
      · simp [Registry.put, Registry.find, h', h'', ih]

/-- C17. When the registry lookup fails, or finds a value that is not a `TaskMonitor`,
`WrapNamed` makes one call of `handleError`, leaves the group as it is (no `Start`, no
counter or `errors` map changed) and returns a function that does nothing for every
argument.  Otherwise it does exactly one `Start` on the monitor registered under the
sanitized name (a fresh monitor when there was none), touches no other entry, reports
nothing, and returns the `Finish` of that context. -/
theorem wrapNamed_cases (env : Env) (failure : Option GoString) (g : MonitorGroup)
    (name : GoString) :
    (∀ e, failure = some e →
        g.WrapNamed env failure name =
          { group := g, reported := [.lookupError e], wrapped := .noop }) ∧
      (failure = none → g.monitors.find (env.SanitizeName name) = some .other →
        g.WrapNamed env failure name =
          { group := g, reported := [.wrongType (env.SanitizeName name)], wrapped := .noop }) ∧
      (∀ (g' : MonitorGroup) (err : Option GoError) (d : Int),
        Wrapped.call env .noop g' err d = .ok g') ∧
      (failure = none → ∀ t : TaskMonitor,
        (g.monitors.find (env.SanitizeName name) = some (.task t) ∨
          (g.monitors.find (env.SanitizeName name) = none ∧ t = NewTaskMonitor)) →
        (g.WrapNamed env failure name).reported = [] ∧
        (g.WrapNamed env failure name).wrapped = .finish (env.SanitizeName name) ∧
        (g.WrapNamed env failure name).group.monitors.find (env.SanitizeName name) =
          some (.task t.Start) ∧
        (∀ k, k ≠ env.SanitizeName name →
          (g.WrapNamed env failure name).group.monitors.find k = g.monitors.find k) ∧
        ∀ (err : Option GoError) (d : Int),
          Wrapped.call env (g.WrapNamed env failure name).wrapped
              (g.WrapNamed env failure name).group err d =
            match Finish env t.Start err d with
            | .ok t' =>
              .ok (MonitorGroup.mk ((g.WrapNamed env failure name).group.monitors.put
                (env.SanitizeName name) (.task t')))
            | .error p => .error p) := by
  refine ⟨?_, ?_, fun _ _ _ => rfl, ?_⟩
  · rintro e rfl
    rfl
  · rintro rfl hf
    simp only [MonitorGroup.WrapNamed, Registry.Get, hf]
  · rintro rfl t hcase
    rcases hcase with hf | ⟨hf, rfl⟩
    · have hres : g.WrapNamed env none name =
          WrapResult.mk (MonitorGroup.mk
            (g.monitors.put (env.SanitizeName name) (.task t.Start))) []
            (.finish (env.SanitizeName name)) := by
        simp only [MonitorGroup.WrapNamed, Registry.Get, hf]
      rw [hres]
      refine ⟨rfl, rfl, Registry.find_put_self _ _ _,
        fun k hk => Registry.find_put_ne _ _ hk, fun err d => ?_⟩
      simp only [Wrapped.call, Registry.find_put_self]
    · have hres : g.WrapNamed env none name =
          WrapResult.mk (MonitorGroup.mk
            ((g.monitors.put (env.SanitizeName name) (.task NewTaskMonitor)).put
              (env.SanitizeName name) (.task NewTaskMonitor.Start))) []
            (.finish (env.SanitizeName name)) := by
        simp only [MonitorGroup.WrapNamed, Registry.Get, hf]
      rw [hres]
      refine ⟨rfl, rfl, Registry.find_put_self _ _ _,
        fun k hk => ?_, fun err d => ?_⟩
      · show Registry.find (Registry.put (Registry.put g.monitors _ _) _ _) k = _
        rw [Registry.find_put_ne _ _ hk, Registry.find_put_ne _ _ hk]
      · simp only [Wrapped.call, Registry.find_put_self]

/-- C17 at a concrete group: wrapping `db.query` starts one task on that monitor. -/
theorem wrapNamed_cases_witness :
    (sampleGroup.WrapNamed defaultEnv none (lit "db.query")).group.monitors.find
        (lit "db.query") =
        some (.task (TaskMonitor.mk 1 2 6 5 4 [3, 1, 4, 1, 5] [(lit "Timeout", 1)])) ∧
      sampleGroup.WrapNamed defaultEnv none (lit "latency") =
        { group := sampleGroup, reported := [.wrongType (lit "latency")], wrapped := .noop } :=
  ⟨((wrapNamed_cases defaultEnv none sampleGroup (lit "db.query")).2.2.2 rfl
      (TaskMonitor.mk 0 2 5 5 4 [3, 1, 4, 1, 5] [(lit "Timeout", 1)]) (Or.inl rfl)).2.2.1,
    (wrapNamed_cases defaultEnv none sampleGroup (lit "latency")).2.1 rfl rfl⟩

/-! ## Wrap-around of the outcome counters (C1) and a short length limit (C6) -/

theorem run_mem_history {env : Env} {calls : List Call} {t t' : TaskMonitor}
    (h : run env t calls = .ok t') : t' ∈ history env t calls := by
  induction calls generalizing t with
  | nil =>
    simp only [run, Except.ok.injEq] at h
    subst h
    simp [history]
  | cons c cs ih =>
    obtain ⟨t₁, h1, h2⟩ := run_cons_ok h
    simp only [history, h1]
    exact List.mem_cons_of_mem _ (ih h2)

theorem wellFormedFrom_finishRange_append (m s issued : Nat) (finished : List Nat)
    (rest : List Call) (hle : s + m ≤ issued) (hb : ∀ c ∈ finished, c < s) :
    wellFormedFrom issued finished
        ((List.range' s m).map (fun ctx => Call.finish ctx none 0) ++ rest) =
      wellFormedFrom issued ((List.range' s m).reverse ++ finished) rest := by
  induction m generalizing s finished with
  | zero => rfl
  | succ m ih =>
    rw [List.range'_succ, List.map_cons, List.cons_append, wellFormedFrom]
    have hnot : finished.contains s = false := by
      rw [List.contains_eq_any_beq, List.any_eq_false]
      intro c hc
      have := hb c hc
      simp only [beq_iff_eq]
      omega
    have hrec := ih (s + 1) (s :: finished) (by omega) (by
      intro c hc
      rcases List.mem_cons.mp hc with rfl | hc
      · omega
      · have := hb c hc
        omega)
    have hlt : decide (s < issued) = true := decide_eq_true (by omega)
    rw [hnot, hlt, hrec]
    simp

/-- Along `Finish(nil)` calls `success` grows by their number and `errors` stays. -/
theorem run_nil_outcome {env : Env} {calls : List Call} {t t' : TaskMonitor}
    (hall : ∀ c ∈ calls, ∃ ctx d, c = .finish ctx none d)
    (h : run env t calls = .ok t') (hv : t.success < U64) :
    t'.success = (t.success + finishes calls) % U64 ∧ t'.errors = t.errors := by
  induction calls generalizing t with
  | nil =>
    simp only [run, Except.ok.injEq] at h
    subst h
    refine ⟨?_, rfl⟩
    simp only [finishes, finishedCtxs, List.length_nil, U64] at hv ⊢
    omega
  | cons c cs ih =>
    obtain ⟨ctx, d, rfl⟩ := hall c (List.mem_cons_self _ _)
    have hrest := fun c' hc' => hall c' (List.mem_cons_of_mem _ hc')
    simp only [run, step, Finish] at h
    obtain ⟨e1, e2⟩ := ih hrest h (Nat.mod_lt _ (by decide))
    refine ⟨?_, e2⟩
    rw [e1]
    simp only [finishUpdate, finishes, finishedCtxs, List.length_cons, U64]
    omega

theorem allButLastSucceed_spec (env : Env) (n : Nat) (e : GoError) (k : GoString)
    (hk : errorName env e = .ok k) :
    WellFormed (allButLastSucceed n e) ∧
      ∃ t, run env NewTaskMonitor (allButLastSucceed n e) = .ok t ∧
        t.success = n % U64 ∧ t.errors = [(k, 1)] ∧ t.total_completed = (n + 1) % U64 := by
  refine ⟨?_, ?_⟩
  · unfold WellFormed allButLastSucceed
    rw [wellFormedFrom_replicate,
      wellFormedFrom_finishRange_append n 0 (0 + (n + 1)) [] _ (by omega) (by simp)]
    have hnot : ((List.range' 0 n).reverse ++ []).contains n = false := by
      rw [List.contains_eq_any_beq, List.any_eq_false]
      intro c hc
      simp only [List.append_nil, List.mem_reverse, List.mem_range'_1] at hc
      simp only [beq_iff_eq]
      omega
    have hlt : decide (n < 0 + (n + 1)) = true := decide_eq_true (by omega)
    simp only [wellFormedFrom, hnot, hlt, Bool.not_false, Bool.and_self]
  · have hnil : ∀ c ∈ (List.range' 0 n).map (fun ctx => Call.finish ctx none 0),
        ∃ ctx d, c = Call.finish ctx none d := by
      intro c hc
      obtain ⟨ctx, -, rfl⟩ := List.mem_map.mp hc
      exact ⟨ctx, 0, rfl⟩
    obtain ⟨t₁, ht₁⟩ := run_ok_of_nil env _
      (fun c hc => Or.inr (hnil c hc)) (afterStarts (n + 1))
    have hz : (0 : Nat) < U64 := by decide
    obtain ⟨s1, s2⟩ := run_nil_outcome hnil ht₁ (show (0 : Nat) < U64 from hz)
    have hf : finishes ((List.range' 0 n).map (fun ctx => Call.finish ctx none 0)) = n := by
      have : ∀ l : List Nat,
          finishes (l.map (fun ctx => Call.finish ctx none 0)) = l.length := by
        intro l
        induction l with
        | nil => rfl
        | cons a l ih =>
          simp only [finishes, finishedCtxs, List.map_cons, List.length_cons] at ih ⊢
          omega
      rw [this, List.length_range']
    have htc := run_total_completed ht₁ (show (0 : Nat) < U64 from hz)
    rw [hf] at s1 htc
    have hrun : run env NewTaskMonitor (allButLastSucceed n e) =
        .ok (finishUpdate t₁ (some k) 0) := by
      unfold allButLastSucceed
      rw [run_append_ok _ (run_replicate_start env (n + 1)), run_append_ok _ ht₁]
      simp only [run, step, Finish, hk]
    refine ⟨finishUpdate t₁ (some k) 0, hrun, ?_, ?_, ?_⟩
    · show t₁.success = n % U64
      rw [s1]
      simp [afterStarts]
    · show t₁.errors.set k ((t₁.errors.get k + 1) % U64) = [(k, 1)]
      rw [s2]
      have h1 : (1 : Nat) % U64 = 1 := by decide
      simp [afterStarts, ErrMap.set, ErrMap.get, h1]
    · show (t₁.total_completed + 1) % U64 = (n + 1) % U64
      rw [htc]
      simp only [afterStarts, U64]
      omega

/-- C1, as stated, fails once the sum passes `2 ^ 64`: after `2 ^ 64` tasks of which all
but the last succeed, `success` is `2 ^ 64 - 1` and `errors` holds one count of `1`, so the
sum is `2 ^ 64`, while `total_completed` has wrapped around to `0`. -/
theorem outcome_sum_overflow :
    WellFormed outcomeOverflowCalls ∧
      ∃ t, run defaultEnv NewTaskMonitor outcomeOverflowCalls = .ok t ∧
        t ∈ history defaultEnv NewTaskMonitor outcomeOverflowCalls ∧
        t.success = U64 - 1 ∧ t.errors = [(lit "Timeout", 1)] ∧ t.total_completed = 0 ∧
        t.success + t.errors.total = U64 ∧
        t.success + t.errors.total ≠ t.total_completed := by
  obtain ⟨hwf, t, ht, hs, he, hc⟩ :=
    allButLastSucceed_spec defaultEnv (U64 - 1) (errWithClass (lit "Timeout")) (lit "Timeout") rfl
  have hs' : t.success = U64 - 1 := by
    rw [hs]; decide
  have hc' : t.total_completed = 0 := by
    rw [hc]; decide
  have hsum : t.success + t.errors.total = U64 := by
    rw [hs', he]; decide
  exact ⟨hwf, t, ht, run_mem_history ht, hs', he, hc', hsum, by rw [hsum, hc']; decide⟩

/-- C6, as stated, fails for a length limit below 7: with the limit `3` and a
`SanitizeName` that maps `Timeout` to itself, `Start()` then `Finish` of an error of class
`Timeout` is counted under `Tim`, and `Stats` reports `error_Tim = 1` and no
`error_Timeout`. -/
theorem timeout_cut_at_short_limit :
    shortLimitEnv.SanitizeName (lit "Timeout") = lit "Timeout" ∧
      run shortLimitEnv NewTaskMonitor
          [.start, .finish 0 (some (errWithClass (lit "Timeout"))) 0] =
        .ok (TaskMonitor.mk 0 1 1 1 0 [0] [(lit "Tim", 1)]) ∧
      statsLog (TaskMonitor.mk 0 1 1 1 0 [0] [(lit "Tim", 1)]) sampleTiming =
        [(lit "current", .ofUint64 0), (lit "error_Tim", .ofUint64 1),
          (lit "highwater", .ofUint64 1), (lit "success", .ofUint64 0),
          (lit "time_avg", .ofFloat 5), (lit "time_max", .ofFloat 7),
          (lit "total_completed", .ofUint64 1), (lit "total_started", .ofUint64 1)] ∧
      (lit "error_Timeout", Metric.ofUint64 1) ∉
        statsLog (TaskMonitor.mk 0 1 1 1 0 [0] [(lit "Tim", 1)]) sampleTiming :=
  ⟨rfl, rfl, by decide, by decide⟩

end Monitor
